import Mathlib

/-!
A shallow embedding of `scripts/generate_transactions.py` (repository
`PI-Victor/transact`) together with proofs about the generator.

Modelling conventions.

* `Decimal` values are embedded as `ℚ`.  All arithmetic the script performs on
  `Decimal` (addition, subtraction, `min`, comparisons) is exact, so `ℚ` is a
  faithful carrier.  `Decimal.quantize(BPS)` with the default context rounding
  is half-even rounding on the `0.0001` grid; the explicit
  `quantize(BPS, rounding=ROUND_HALF_UP)` is half-up rounding.
* Randomness is made explicit.  The module-level PRNG is modelled as a stream
  `g : ℕ → ℕ` of raw draws together with a cursor into the stream; each PRNG
  primitive (`randint`, `choice`, `choices`, `random`, one swap of `shuffle`)
  consumes one raw draw and reduces it modulo its range, so that the set of
  possible outcomes of every primitive coincides with the set of possible
  outcomes in the script.  Properties quantified over all streams therefore
  cover every behaviour of the seeded Mersenne Twister.
* The script calls `random.shuffle` in `FeedBuilder._client_ids` *before*
  `random.seed(args.seed)` runs, so the shuffle draws come from the RNG state
  the interpreter was started with (OS entropy).  The model keeps two streams:
  `entropy` for the draws made before `random.seed`, and a stream that is a
  function of the configured seed for all draws after it.
* Python exceptions are modelled with `Except String`; the unbounded
  retry recursion of `FeedBuilder.next_row` gets an explicit fuel parameter
  (the script's recursion has no bound; fuel exhaustion is reported as an
  error and never identified with any behaviour of the script).
* Python `dict`s preserve insertion order, which the script observes through
  `dict.items()` iteration; they are embedded as association lists in
  insertion order.  `dict[k] = v` for a fresh key is an append, value
  mutation is an in-place map.  `self.accounts[...]`/`self.deposit_records[...]`
  accesses whose key provably exists are modelled with `List.lookup` plus a
  default that is never reached.
-/

/-- Rational addition through `mkRat`.  Semantically this is `(· + ·)` (see
`qAdd_eq`); the unfolded form keeps the model kernel-computable. -/
def qAdd (a b : ℚ) : ℚ := mkRat (a.num * b.den + b.num * a.den) (a.den * b.den)

/-- Rational subtraction through `mkRat`; semantically `(· - ·)`. -/
def qSub (a b : ℚ) : ℚ := mkRat (a.num * b.den - b.num * a.den) (a.den * b.den)

/-- Rational multiplication through `mkRat`; semantically `(· * ·)`. -/
def qMul (a b : ℚ) : ℚ := mkRat (a.num * b.num) (a.den * b.den)

/-- `BPS = Decimal("0.0001")`, the sub-unit grid of the generator. -/
def BPS : ℚ := mkRat 1 10000

/-- Round to the nearest integer, ties to the even integer: the rounding mode
(`ROUND_HALF_EVEN`) that `Decimal.quantize` uses under the default context. -/
def roundHalfEven (q : ℚ) : ℤ :=
  if qSub q (⌊q⌋ : ℚ) < mkRat 1 2 then ⌊q⌋
  else if mkRat 1 2 < qSub q (⌊q⌋ : ℚ) then ⌊q⌋ + 1
  else if ⌊q⌋ % 2 = 0 then ⌊q⌋ else ⌊q⌋ + 1

/-- Round to the nearest integer, ties away from zero (`ROUND_HALF_UP`). -/
def roundHalfUp (q : ℚ) : ℤ :=
  if 0 ≤ q then ⌊qAdd q (mkRat 1 2)⌋ else -⌊qAdd (-q) (mkRat 1 2)⌋

/-- `int(q.quantize(BPS) / BPS)`: the half-even 4-decimal quantization of `q`,
counted in units of `BPS`.  (The division is exact and `int` truncates an
integral `Decimal`, so the composite is exactly the half-even rounding of
`q * 10000`.) -/
def quant4 (q : ℚ) : ℤ := roundHalfEven (qMul q 10000)

/-- `random.randint(low, high)` with the raw draw `v` made explicit.  For
`low ≤ high` the outcome ranges over exactly `[low, high]`.  (The script only
calls it with `low ≤ high`; Python would raise otherwise.) -/
def randint (low high : ℤ) (v : ℕ) : ℤ := low + (v : ℤ) % (high + 1 - low)

/-- `random.choice(pool)` with the raw draw made explicit: an index into the
pool.  Only called on non-empty pools (Python would raise otherwise). -/
def listChoice (pool : List ℕ) (v : ℕ) : ℕ := pool.getD (v % pool.length) 0

/-- Message of `ValueError("max_amount must be > 0")` in `decimal_from_range`. -/
def msgInvalidRange : String := "max_amount must be > 0"

/-- Message of the fatal error in `FeedBuilder._random_withdrawal`. -/
def msgInsufficient : String := "Withdrawal requested without sufficient funds"

/-- Message of the fatal error in the forced-deposit fallback of `next_row`. -/
def msgNoUnlocked : String := "No unlocked clients available to continue generating deposits"

/-- Message of `ValueError` in `FeedBuilder._client_ids`. -/
def msgClients : String := "--clients must be between 1 and 65535"

/-- Message of `ValueError("--min-amount must be positive")`. -/
def msgMinPos : String := "--min-amount must be positive"

/-- Message of `ValueError("--max-amount must exceed --min-amount")`. -/
def msgMaxMin : String := "--max-amount must exceed --min-amount"

/-- Fuel exhaustion of the modelled retry recursion (no Python counterpart). -/
def msgFuel : String := "model: retry fuel exhausted"

instance {ε α : Type} [DecidableEq ε] [DecidableEq α] : DecidableEq (Except ε α)
  | .ok a, .ok b =>
    if h : a = b then .isTrue (by rw [h]) else .isFalse (by intro hc; cases hc; exact h rfl)
  | .error a, .error b =>
    if h : a = b then .isTrue (by rw [h]) else .isFalse (by intro hc; cases hc; exact h rfl)
  | .ok _, .error _ => .isFalse (by intro hc; cases hc)
  | .error _, .ok _ => .isFalse (by intro hc; cases hc)

/-- `decimal_from_range(min_amount, max_amount)`: raise when `max_amount ≤ 0`,
quantize both bounds to the `BPS` grid (half-even), clamp `high` up to `low`,
draw a grid point uniformly, and re-quantize the (already integral) result
with `ROUND_HALF_UP`. -/
def decimal_from_range (min_amount max_amount : ℚ) (v : ℕ) : Except String ℚ :=
  if max_amount ≤ 0 then .error msgInvalidRange
  else
    let low := quant4 min_amount
    let high0 := quant4 max_amount
    let high := if high0 < low then low else high0
    .ok (qMul ((roundHalfUp (qMul (qMul (randint low high v : ℚ) BPS) 10000) : ℤ) : ℚ) BPS)

/-- Status field of `DepositRecord`. -/
inductive TxStatus
  | posted
  | disputed
  | resolved
  | chargeback
deriving DecidableEq, Repr

/-- `DepositRecord` dataclass of the script. -/
structure DepositRecord where
  client : ℕ
  amount : ℚ
  status : TxStatus
deriving DecidableEq, Repr

/-- `ClientAccount` of the script: `available`, `held`, `locked`. -/
structure ClientAccount where
  available : ℚ := 0
  held : ℚ := 0
  locked : Bool := false
deriving DecidableEq, Repr

/-- The five row types the generator can emit. -/
inductive RowKind
  | deposit
  | withdrawal
  | dispute
  | resolve
  | chargeback
deriving DecidableEq, Repr

/-- One emitted CSV row `(type, client, tx, amount)`.  `amount = none` models
the empty amount field of dispute/resolve/chargeback rows; deposit and
withdrawal rows carry `some q`, emitted as a fixed 4-decimal string. -/
structure Row where
  kind : RowKind
  client : ℕ
  tx : ℕ
  amount : Option ℚ
deriving DecidableEq, Repr

/-- The mutable state of a `FeedBuilder` instance. -/
structure FeedBuilder where
  min_amount : ℚ
  max_amount : ℚ
  tx_counter : ℕ
  accounts : List (ℕ × ClientAccount)
  deposit_records : List (ℕ × DepositRecord)
  posted_txs : List ℕ
  disputed_txs : List ℕ
deriving DecidableEq, Repr

/-- In-place mutation of the value stored under key `k` of an association
list (Python mutates the object held by the dict). -/
def updEntry {α : Type} (k : ℕ) (f : α → α) (p : ℕ × α) : ℕ × α :=
  if p.1 = k then (p.1, f p.2) else p

/-- Mutate the `ClientAccount` stored under `cid` (a no-op when `cid` is
absent; every call site passes an existing client id, where Python would have
raised `KeyError`). -/
def FeedBuilder.update_account (s : FeedBuilder) (cid : ℕ)
    (f : ClientAccount → ClientAccount) : FeedBuilder :=
  { s with accounts := s.accounts.map (updEntry cid f) }

/-- Set the `status` field of the record stored under `tx`. -/
def FeedBuilder.set_status (s : FeedBuilder) (tx : ℕ) (st : TxStatus) : FeedBuilder :=
  { s with deposit_records :=
      s.deposit_records.map (updEntry tx (fun r => { r with status := st })) }

/-- `self.accounts[cid]` at call sites where the key exists. -/
def FeedBuilder.get_account (s : FeedBuilder) (cid : ℕ) : ClientAccount :=
  (s.accounts.lookup cid).getD {}

/-- `FeedBuilder._unlocked_clients`. -/
def FeedBuilder.unlocked_clients (s : FeedBuilder) : List ℕ :=
  (s.accounts.filter (fun p => !p.2.locked)).map Prod.fst

/-- `FeedBuilder._funded_clients`. -/
def FeedBuilder.funded_clients (s : FeedBuilder) : List ℕ :=
  (s.accounts.filter (fun p => !p.2.locked && decide (s.min_amount ≤ p.2.available))).map Prod.fst

/-- `FeedBuilder._choose_client`. -/
def FeedBuilder.choose_client (s : FeedBuilder) (require_funds : Bool) (v : ℕ) : Option ℕ :=
  let pool := if require_funds then s.funded_clients else s.unlocked_clients
  if pool.isEmpty then none else some (listChoice pool v)

/-- `FeedBuilder._random_deposit`. -/
def FeedBuilder.random_deposit (s : FeedBuilder) (cid : ℕ) (v : ℕ) :
    Except String (Row × FeedBuilder) :=
  match decimal_from_range s.min_amount s.max_amount v with
  | .error e => .error e
  | .ok amount =>
    let tx := s.tx_counter
    let s1 := s.update_account cid (fun a => { a with available := qAdd a.available amount })
    let s2 := { s1 with
      tx_counter := tx + 1
      deposit_records := s1.deposit_records ++ [(tx, ⟨cid, amount, .posted⟩)]
      posted_txs := s1.posted_txs ++ [tx] }
    .ok (⟨.deposit, cid, tx, some amount⟩, s2)

/-- `FeedBuilder._random_withdrawal`. -/
def FeedBuilder.random_withdrawal (s : FeedBuilder) (cid : ℕ) (v : ℕ) :
    Except String (Row × FeedBuilder) :=
  let account := s.get_account cid
  let max_amt := min account.available s.max_amount
  if max_amt < s.min_amount then .error msgInsufficient
  else
    match decimal_from_range s.min_amount max_amt v with
    | .error e => .error e
    | .ok amount =>
      let s1 := s.update_account cid (fun a => { a with available := qSub a.available amount })
      .ok (⟨.withdrawal, cid, s1.tx_counter, some amount⟩,
           { s1 with tx_counter := s1.tx_counter + 1 })

/-- The eligibility test of `FeedBuilder._choose_tx` (also the body of the
loops of `_has_posted_for_unlocked` / `_has_disputed_for_unlocked`): the tx
has a deposit record and its owning account exists and is not locked. -/
def FeedBuilder.tx_for_unlocked (s : FeedBuilder) (tx : ℕ) : Bool :=
  match s.deposit_records.lookup tx with
  | none => false
  | some r =>
    match s.accounts.lookup r.client with
    | none => false
    | some a => !a.locked

/-- The `while pool:` loop of `FeedBuilder._choose_tx`, structured on an upper
bound for the number of iterations (each iteration that does not return
removes one element, so `pool.length` iterations always suffice; the `0`
fuel case is unreachable from `choose_tx`). -/
def FeedBuilder.choose_tx_aux (s : FeedBuilder) (g : ℕ → ℕ) :
    ℕ → List ℕ → ℕ → Option ℕ × List ℕ × ℕ
  | _, [], i => (none, [], i)
  | 0, pool, i => (none, pool, i)
  | n + 1, x :: xs, i =>
    let tx := listChoice (x :: xs) (g i)
    if s.tx_for_unlocked tx then (some tx, x :: xs, i + 1)
    else s.choose_tx_aux g n ((x :: xs).erase tx) (i + 1)

/-- `FeedBuilder._choose_tx`.  Returns the chosen tx (if any), the pool as
mutated by the lazy cleanup (`pool.remove(tx)` for ineligible picks), and the
new stream cursor. -/
def FeedBuilder.choose_tx (s : FeedBuilder) (g : ℕ → ℕ) (pool : List ℕ) (i : ℕ) :
    Option ℕ × List ℕ × ℕ :=
  s.choose_tx_aux g pool.length pool i

/-- `FeedBuilder._dispute`.  The `none` branch after the lookup is
unreachable: `_choose_tx` only returns recorded txs (Python indexes the dict
unconditionally there). -/
def FeedBuilder.dispute (s : FeedBuilder) (g : ℕ → ℕ) (i : ℕ) :
    Option Row × FeedBuilder × ℕ :=
  match s.choose_tx g s.posted_txs i with
  | (none, pool, i') => (none, { s with posted_txs := pool }, i')
  | (some tx, pool, i') =>
    let s1 := { s with posted_txs := pool.erase tx }
    match s1.deposit_records.lookup tx with
    | none => (none, s1, i')
    | some r =>
      let s2 := s1.update_account r.client (fun a =>
        { a with available := qSub a.available r.amount, held := qAdd a.held r.amount })
      let s3 := s2.set_status tx .disputed
      (some ⟨.dispute, r.client, tx, none⟩,
       { s3 with disputed_txs := s3.disputed_txs ++ [tx] }, i')

/-- `FeedBuilder._resolve`. -/
def FeedBuilder.resolve (s : FeedBuilder) (g : ℕ → ℕ) (i : ℕ) :
    Option Row × FeedBuilder × ℕ :=
  match s.choose_tx g s.disputed_txs i with
  | (none, pool, i') => (none, { s with disputed_txs := pool }, i')
  | (some tx, pool, i') =>
    let s1 := { s with disputed_txs := pool.erase tx }
    match s1.deposit_records.lookup tx with
    | none => (none, s1, i')
    | some r =>
      let s2 := s1.update_account r.client (fun a =>
        { a with held := qSub a.held r.amount, available := qAdd a.available r.amount })
      (some ⟨.resolve, r.client, tx, none⟩, s2.set_status tx .resolved, i')

/-- `FeedBuilder._chargeback`. -/
def FeedBuilder.chargeback (s : FeedBuilder) (g : ℕ → ℕ) (i : ℕ) :
    Option Row × FeedBuilder × ℕ :=
  match s.choose_tx g s.disputed_txs i with
  | (none, pool, i') => (none, { s with disputed_txs := pool }, i')
  | (some tx, pool, i') =>
    let s1 := { s with disputed_txs := pool.erase tx }
    match s1.deposit_records.lookup tx with
    | none => (none, s1, i')
    | some r =>
      let s2 := s1.update_account r.client (fun a =>
        { a with held := qSub a.held r.amount, locked := true })
      (some ⟨.chargeback, r.client, tx, none⟩, s2.set_status tx .chargeback, i')

/-- `FeedBuilder._has_posted_for_unlocked`. -/
def FeedBuilder.has_posted_for_unlocked (s : FeedBuilder) : Bool :=
  s.posted_txs.any s.tx_for_unlocked

/-- `FeedBuilder._has_disputed_for_unlocked`. -/
def FeedBuilder.has_disputed_for_unlocked (s : FeedBuilder) : Bool :=
  s.disputed_txs.any s.tx_for_unlocked

/-- `FeedBuilder._valid_actions`, in the script's append order. -/
def FeedBuilder.valid_actions (s : FeedBuilder) : List RowKind :=
  (if !s.unlocked_clients.isEmpty then [RowKind.deposit] else []) ++
  (if !s.funded_clients.isEmpty then [RowKind.withdrawal] else []) ++
  (if s.has_posted_for_unlocked then [RowKind.dispute] else []) ++
  (if s.has_disputed_for_unlocked then [RowKind.resolve] else []) ++
  (if 2 ≤ s.unlocked_clients.length ∧ s.has_disputed_for_unlocked = true
     then [RowKind.chargeback] else [])

/-- `action_order` of `next_row`: the five handlers with their weights.  A
weight is zeroed when its action is not in `valid_actions`, and
`random.choices` can only ever return an entry with positive weight, so the
weighted draw is a draw from the sublist of valid entries. -/
def action_order : List (RowKind × ℚ) :=
  [(.deposit, mkRat 48 100), (.withdrawal, mkRat 28 100), (.dispute, mkRat 12 100),
   (.resolve, mkRat 10 100), (.chargeback, mkRat 2 100)]

/-- `FeedBuilder.next_row`.  `fuel` bounds the retry recursion (see module
comment); one raw draw is consumed by the weighted choice, one by each
`random.choice` / `random.random` / `randint` call, in evaluation order. -/
def next_row (g : ℕ → ℕ) : ℕ → FeedBuilder → ℕ → Except String (Row × FeedBuilder × ℕ)
  | 0, _, _ => .error msgFuel
  | fuel + 1, s, i =>
    let cands := action_order.filter (fun p => decide (p.1 ∈ s.valid_actions))
    match cands with
    | [] =>
      -- all weights zero: forced-deposit fallback
      match s.choose_client false (g i) with
      | none => .error msgNoUnlocked
      | some cid =>
        match s.random_deposit cid (g (i + 1)) with
        | .error e => .error e
        | .ok (r, s') => .ok (r, s', i + 2)
    | c :: cs =>
      let name := ((c :: cs).getD (g i % (c :: cs).length) (RowKind.deposit, 0)).1
      match name with
      | .deposit =>
        match s.choose_client false (g (i + 1)) with
        | none => next_row g fuel s (i + 2)
        | some cid =>
          match s.random_deposit cid (g (i + 2)) with
          | .error e => .error e
          | .ok (r, s') => .ok (r, s', i + 3)
      | .withdrawal =>
        match s.choose_client true (g (i + 1)) with
        | none => next_row g fuel s (i + 2)
        | some cid =>
          match s.random_withdrawal cid (g (i + 2)) with
          | .error e => .error e
          | .ok (r, s') => .ok (r, s', i + 3)
      | .dispute =>
        match s.dispute g (i + 1) with
        | (none, s', i') => next_row g fuel s' i'
        | (some r, s', i') => .ok (r, s', i')
      | .resolve =>
        match s.resolve g (i + 1) with
        | (none, s', i') => next_row g fuel s' i'
        | (some r, s', i') => .ok (r, s', i')
      | .chargeback =>
        -- `if random.random() > 0.35: return self.next_row()`
        if 35 ≤ g (i + 1) % 100 then next_row g fuel s (i + 2)
        else
          match s.chargeback g (i + 2) with
          | (none, s', i') => next_row g fuel s' i'
          | (some r, s', i') => .ok (r, s', i')

/-- Swap the entries at positions `i` and `j` (both in bounds at call sites). -/
def list_swap (l : List ℕ) (i j : ℕ) : List ℕ :=
  (l.set i (l.getD j 0)).set j (l.getD i 0)

/-- The Fisher-Yates loop of `random.shuffle`: for `i` from `len - 1` down to
`1`, swap position `i` with a drawn position `j ≤ i`. -/
def shuffle_aux (g : ℕ → ℕ) (base : ℕ) : List ℕ → ℕ → List ℕ
  | l, 0 => l
  | l, k + 1 => shuffle_aux g base (list_swap l (k + 1) (g (base + k) % (k + 2))) k

/-- `FeedBuilder._client_ids`: validate the count and shuffle `[1..count]`.
The shuffle runs *before* `random.seed` in `__init__`, so its draws come from
the `entropy` stream. -/
def client_ids (count : ℕ) (entropy : ℕ → ℕ) : Except String (List ℕ) :=
  if 1 ≤ count ∧ count ≤ 65535 then
    .ok (shuffle_aux entropy 0 (List.range' 1 count) (count - 1))
  else .error msgClients

/-- The externally supplied configuration (`argparse` namespace).
`min_amount`/`max_amount` hold the exact value of `Decimal(str(args.x))`. -/
structure Config where
  rows : ℤ
  clients : ℕ
  min_amount : ℚ
  max_amount : ℚ
  seed : ℤ
deriving DecidableEq, Repr

/-- `FeedBuilder.__init__`: validate the bounds, build the accounts dict over
the shuffled ids, and only then call `random.seed(args.seed)`. -/
def init_builder (cfg : Config) (entropy : ℕ → ℕ) : Except String FeedBuilder :=
  if cfg.min_amount ≤ 0 then .error msgMinPos
  else if cfg.max_amount ≤ cfg.min_amount then .error msgMaxMin
  else
    match client_ids cfg.clients entropy with
    | .error e => .error e
    | .ok ids => .ok {
        min_amount := cfg.min_amount
        max_amount := cfg.max_amount
        tx_counter := 1
        accounts := ids.map (fun cid => (cid, {}))
        deposit_records := []
        posted_txs := []
        disputed_txs := [] }

/-- The row loop of `main`: call `next_row` `k` times, recording for each
emitted row the builder state just before and just after it. -/
def run_rows (g : ℕ → ℕ) (fuel : ℕ) :
    ℕ → FeedBuilder → ℕ → Except String (List (FeedBuilder × Row × FeedBuilder))
  | 0, _, _ => .ok []
  | k + 1, s, i =>
    match next_row g fuel s i with
    | .error e => .error e
    | .ok (r, s', i') =>
      match run_rows g fuel k s' i' with
      | .error e => .error e
      | .ok tr => .ok ((s, r, s') :: tr)

/-- Build the feed for a configuration: initialize the builder (consuming
`entropy`) and then emit `max(1, rows) - 1` rows driven by the post-seed
stream `g`. -/
def gen_trace (cfg : Config) (entropy g : ℕ → ℕ) (fuel : ℕ) :
    Except String (List (FeedBuilder × Row × FeedBuilder)) :=
  match init_builder cfg entropy with
  | .error e => .error e
  | .ok s => run_rows g fuel (max 1 cfg.rows - 1).toNat s 0

/-- After `random.seed(seed)` the draw stream is a fixed function of the seed
alone.  The concrete function below is an abstract stand-in for the seeded
Mersenne Twister: all that matters is that it depends on nothing but `seed`. -/
def mk_stream (seed : ℤ) : ℕ → ℕ :=
  fun n => ((seed.natAbs + 1) * 2654435761 + n * 40503) % 4294967296

/-- The rows a run of the program emits (excluding the header line). -/
def generate (cfg : Config) (entropy : ℕ → ℕ) (fuel : ℕ) : Except String (List Row) :=
  (gen_trace cfg entropy (mk_stream cfg.seed) fuel).map (fun tr => tr.map (fun t => t.2.1))

/-- One line of the CSV output: the header or a record line. -/
inductive CsvLine
  | header
  | record (r : Row)
deriving DecidableEq, Repr

/-- `main`: write the header line, then one record line per generated row. -/
def main_output (cfg : Config) (entropy : ℕ → ℕ) (fuel : ℕ) :
    Except String (List CsvLine) :=
  (generate cfg entropy fuel).map (fun rs => CsvLine.header :: rs.map CsvLine.record)

/-- Sum of the amounts of the deposit records with status `disputed` owned by
`cid`; the account invariant says `held` always equals this sum. -/
def held_sum (records : List (ℕ × DepositRecord)) (cid : ℕ) : ℚ :=
  ((records.filter (fun p =>
      decide (p.2.status = TxStatus.disputed ∧ p.2.client = cid))).map
    (fun p => p.2.amount)).sum

/-- The pool/status lockstep property of claim C9 (spec section 3, "Pending
pools"). -/
def PoolsLockstep (s : FeedBuilder) : Prop :=
  (∀ tx ∈ s.posted_txs, ∃ r, s.deposit_records.lookup tx = some r ∧ r.status = .posted) ∧
  (∀ tx ∈ s.disputed_txs, ∃ r, s.deposit_records.lookup tx = some r ∧ r.status = .disputed) ∧
  (∀ tx : ℕ, ¬(tx ∈ s.posted_txs ∧ tx ∈ s.disputed_txs)) ∧
  (∀ p ∈ s.deposit_records, (p.2.status = .resolved ∨ p.2.status = .chargeback) →
      p.1 ∉ s.posted_txs ∧ p.1 ∉ s.disputed_txs)

/-- The internal invariant of a `FeedBuilder` state, preserved by every
successful `next_row` step. -/
structure BuilderInv (s : FeedBuilder) : Prop where
  nodupAcc : (s.accounts.map Prod.fst).Nodup
  nodupRec : (s.deposit_records.map Prod.fst).Nodup
  nodupPosted : s.posted_txs.Nodup
  nodupDisputed : s.disputed_txs.Nodup
  postedStatus : ∀ tx ∈ s.posted_txs,
    ∃ r, s.deposit_records.lookup tx = some r ∧ r.status = .posted
  disputedStatus : ∀ tx ∈ s.disputed_txs,
    ∃ r, s.deposit_records.lookup tx = some r ∧ r.status = .disputed
  recClient : ∀ p ∈ s.deposit_records, ∃ a, s.accounts.lookup p.2.client = some a
  recFresh : ∀ p ∈ s.deposit_records, p.1 < s.tx_counter
  amountsNonneg : ∀ p ∈ s.deposit_records, 0 ≤ p.2.amount
  amountsGrid : ∀ p ∈ s.deposit_records, ∃ n : ℤ, p.2.amount = (n : ℚ) * BPS
  availGrid : ∀ p ∈ s.accounts, ∃ n : ℤ, p.2.available = (n : ℚ) * BPS
  heldEq : ∀ cid a, s.accounts.lookup cid = some a → a.held = held_sum s.deposit_records cid
  minPos : 0 < s.min_amount
  maxGtMin : s.min_amount < s.max_amount

/-- Relation between a state and its pool-cleanup mutations: everything but
the two pools is untouched and the pools only lose elements. -/
structure PoolShrink (s s1 : FeedBuilder) : Prop where
  acc : s1.accounts = s.accounts
  recs : s1.deposit_records = s.deposit_records
  ctr : s1.tx_counter = s.tx_counter
  mn : s1.min_amount = s.min_amount
  mx : s1.max_amount = s.max_amount
  posted : s1.posted_txs.Sublist s.posted_txs
  disputed : s1.disputed_txs.Sublist s.disputed_txs

/-- Everything a single successful `next_row` step guarantees, relating the
pre-state `s`, the emitted row and the post-state `s'`. -/
structure NextSound (s : FeedBuilder) (row : Row) (s' : FeedBuilder) : Prop where
  inv' : BuilderInv s'
  keys : s'.accounts.map Prod.fst = s.accounts.map Prod.fst
  lockMono : ∀ c a a', s.accounts.lookup c = some a → s'.accounts.lookup c = some a' →
    a.locked = true → a'.locked = true
  clientOk : ∃ a, s.accounts.lookup row.client = some a ∧ a.locked = false
  cbLocks : row.kind = .chargeback →
    ∃ a', s'.accounts.lookup row.client = some a' ∧ a'.locked = true
  dwTx : row.kind = .deposit ∨ row.kind = .withdrawal →
    row.tx = s.tx_counter ∧ s'.tx_counter = s.tx_counter + 1
  refTx : row.kind = .dispute ∨ row.kind = .resolve ∨ row.kind = .chargeback →
    s'.tx_counter = s.tx_counter ∧
      ∃ r, s.deposit_records.lookup row.tx = some r ∧ r.client = row.client
  depAmt : row.kind = .deposit → ∃ q, row.amount = some q
  recKeep : ∀ tx r, s.deposit_records.lookup tx = some r →
    ∃ r', s'.deposit_records.lookup tx = some r' ∧ r'.client = r.client ∧ r'.amount = r.amount
  recNew : ∀ tx r', s'.deposit_records.lookup tx = some r' →
    (∃ r, s.deposit_records.lookup tx = some r ∧ r.client = r'.client ∧ r.amount = r'.amount) ∨
    (row.kind = .deposit ∧ tx = row.tx ∧ r'.client = row.client ∧ some r'.amount = row.amount)
  wdAvail : row.kind = .withdrawal →
    ∃ a', s'.accounts.lookup row.client = some a' ∧ 0 ≤ a'.available
  depAvail : row.kind = .deposit → ∃ a a', s.accounts.lookup row.client = some a ∧
    s'.accounts.lookup row.client = some a' ∧ a.available ≤ a'.available

/-- A trace is sound from `s`: the recorded pre-states chain correctly and
every step satisfies `NextSound`. -/
def TraceSound : FeedBuilder → List (FeedBuilder × Row × FeedBuilder) → Prop
  | _, [] => True
  | s, (a, r, b) :: rest => a = s ∧ BuilderInv s ∧ NextSound s r b ∧ TraceSound b rest

/-- The emitted rows of a trace, in order. -/
def traceRows (tr : List (FeedBuilder × Row × FeedBuilder)) : List Row :=
  tr.map (fun t => t.2.1)

/-- The deposit and withdrawal rows: the rows that consume the tx counter. -/
def dwRows (rows : List Row) : List Row :=
  rows.filter (fun r => decide (r.kind = RowKind.deposit ∨ r.kind = RowKind.withdrawal))

/-- The row kinds that reference an existing deposit instead of getting a
fresh tx id. -/
def isRefKind (r : Row) : Prop :=
  r.kind = RowKind.dispute ∨ r.kind = RowKind.resolve ∨ r.kind = RowKind.chargeback

/-! ### Concrete scenarios used by the claim witnesses and counterexamples -/

/-- Draw stream of the C2 counterexample run: deposit 2, withdraw 2, dispute. -/
def gC2 : ℕ → ℕ := fun n => [0, 0, 10000, 1, 0, 10000, 1, 0].getD n 0

/-- Configuration of the C2 counterexample run (`--rows 4 --clients 1
--min-amount 1 --max-amount 2`). -/
def cfgC2 : Config := { rows := 4, clients := 1, min_amount := 1, max_amount := 2, seed := 0 }

/-- The trace of the C2 counterexample run. -/
def trC2 : List (FeedBuilder × Row × FeedBuilder) :=
  (gen_trace cfgC2 (fun _ => 0) gC2 3).toOption.getD []

/-- Draw stream of the witness run: deposit c1, dispute, chargeback, deposit c2. -/
def gW3 : ℕ → ℕ := fun n => [0, 0, 0, 2, 0, 2, 0, 0, 0, 0, 0].getD n 0

/-- Entropy stream of the witness run (shuffle keeps the ids in order). -/
def eW3 : ℕ → ℕ := fun _ => 1

/-- Configuration of the witness run (`--rows 5 --clients 2 --min-amount 1
--max-amount 2`). -/
def cfgW3 : Config := { rows := 5, clients := 2, min_amount := 1, max_amount := 2, seed := 0 }

/-- The trace of the witness run. -/
def trW3 : List (FeedBuilder × Row × FeedBuilder) :=
  (gen_trace cfgW3 eW3 gW3 1).toOption.getD []

/-- The builder state right after initialization of the witness run. -/
def s0W : FeedBuilder :=
  (init_builder cfgW3 eW3).toOption.getD ⟨1, 2, 1, [], [], [], []⟩

/-- Configuration showing the determinism bug (default seed 1337). -/
def cfgC1 : Config :=
  { rows := 2, clients := 2, min_amount := mkRat 1 100, max_amount := 5000, seed := 1337 }

/-- A header-only configuration (`--rows 0`). -/
def cfgR0 : Config := { rows := 0, clients := 1, min_amount := 1, max_amount := 2, seed := 0 }

/-- A state whose only account is locked: no action is legal. -/
def sLock : FeedBuilder :=
  { min_amount := 1, max_amount := 2, tx_counter := 1,
    accounts := [(1, { available := 0, held := 0, locked := true })],
    deposit_records := [], posted_txs := [], disputed_txs := [] }

/-- A reachable state (after one deposit of 0.0001 under
`--min-amount 0.00004 --max-amount 1`) on which `_random_withdrawal` emits an
amount below `min_amount`. -/
def sC6 : FeedBuilder :=
  { min_amount := mkRat 1 25000, max_amount := 1, tx_counter := 2,
    accounts := [(1, { available := mkRat 1 10000, held := 0, locked := false })],
    deposit_records := [(1, ⟨1, mkRat 1 10000, .posted⟩)], posted_txs := [1], disputed_txs := [] }

/-- The state `sC6` after the zero-amount withdrawal. -/
def sC6after : FeedBuilder :=
  { min_amount := mkRat 1 25000, max_amount := 1, tx_counter := 3,
    accounts := [(1, { available := mkRat 1 10000, held := 0, locked := false })],
    deposit_records := [(1, ⟨1, mkRat 1 10000, .posted⟩)], posted_txs := [1], disputed_txs := [] }

/-! ### Arithmetic bridges -/

theorem qAdd_eq (a b : ℚ) : qAdd a b = a + b := (Rat.add_def' a b).symm

theorem qSub_eq (a b : ℚ) : qSub a b = a - b := (Rat.sub_def' a b).symm

theorem qMul_eq (a b : ℚ) : qMul a b = a * b := by
  rw [Rat.mul_def, Rat.normalize_eq_mkRat]; rfl

theorem mkRat_div (n : ℤ) (d : ℕ) : (mkRat n d : ℚ) = (n : ℚ) / (d : ℚ) := by
  rw [Rat.mkRat_eq_divInt, Rat.divInt_eq_div]; norm_num

theorem BPS_eq : BPS = 1 / 10000 := by
  rw [BPS, mkRat_div]; norm_num

theorem mkRat_half : (mkRat 1 2 : ℚ) = 1 / 2 := by
  rw [mkRat_div]; norm_num

/-! ### Association list lemmas -/

theorem lookup_cons_eq {α : Type} (p : ℕ × α) (t : List (ℕ × α)) {k : ℕ} (h : k = p.1) :
    (p :: t).lookup k = some p.2 := by
  rw [List.lookup, beq_iff_eq.mpr h]

theorem lookup_cons_ne {α : Type} (p : ℕ × α) (t : List (ℕ × α)) {k : ℕ} (h : k ≠ p.1) :
    (p :: t).lookup k = t.lookup k := by
  rw [List.lookup, beq_eq_false_iff_ne.mpr h]

theorem mem_of_lookup_eq_some {α : Type} {l : List (ℕ × α)} {k : ℕ} {v : α}
    (h : l.lookup k = some v) : (k, v) ∈ l := by
  induction l with
  | nil => simp [List.lookup] at h
  | cons p t ih =>
    by_cases hk : k = p.1
    · rw [lookup_cons_eq p t hk] at h
      cases h
      rw [hk]
      exact List.mem_cons_self _ _
    · rw [lookup_cons_ne p t hk] at h
      exact List.mem_cons_of_mem _ (ih h)

theorem mem_keys_of_lookup_eq_some {α : Type} {l : List (ℕ × α)} {k : ℕ} {v : α}
    (h : l.lookup k = some v) : k ∈ l.map Prod.fst := by
  have := mem_of_lookup_eq_some h
  exact List.mem_map.mpr ⟨(k, v), this, rfl⟩

theorem lookup_eq_some_of_mem_keys {α : Type} {l : List (ℕ × α)} {k : ℕ}
    (h : k ∈ l.map Prod.fst) : ∃ v, l.lookup k = some v := by
  induction l with
  | nil => simp at h
  | cons p t ih =>
    rw [List.map_cons, List.mem_cons] at h
    by_cases hk : k = p.1
    · exact ⟨p.2, lookup_cons_eq p t hk⟩
    · rcases h with h | h
      · exact absurd h hk
      · rcases ih h with ⟨v, hv⟩
        exact ⟨v, by rw [lookup_cons_ne p t hk]; exact hv⟩

theorem lookup_eq_some_of_mem_nodup {α : Type} {l : List (ℕ × α)} {k : ℕ} {v : α}
    (hnd : (l.map Prod.fst).Nodup) (hm : (k, v) ∈ l) : l.lookup k = some v := by
  induction l with
  | nil => simp at hm
  | cons p t ih =>
    rw [List.map_cons, List.nodup_cons] at hnd
    rcases List.mem_cons.mp hm with h | h
    · rw [← h]
      exact lookup_cons_eq (k, v) t rfl
    · have hk : k ≠ p.1 := by
        intro hk
        exact hnd.1 (List.mem_map.mpr ⟨(k, v), h, hk⟩)
      rw [lookup_cons_ne p t hk]
      exact ih hnd.2 h

theorem lookup_eq_none_of_not_mem_keys {α : Type} {l : List (ℕ × α)} {k : ℕ}
    (h : k ∉ l.map Prod.fst) : l.lookup k = none := by
  cases hl : l.lookup k with
  | none => rfl
  | some v => exact absurd (mem_keys_of_lookup_eq_some hl) h

theorem keys_map_updEntry {α : Type} (l : List (ℕ × α)) (k : ℕ) (f : α → α) :
    (l.map (updEntry k f)).map Prod.fst = l.map Prod.fst := by
  induction l with
  | nil => rfl
  | cons p t ih =>
    simp only [List.map_cons, ih, updEntry]
    by_cases hk : p.1 = k <;> simp [hk]

theorem updEntry_fst {α : Type} (k : ℕ) (f : α → α) (p : ℕ × α) :
    (updEntry k f p).1 = p.1 := by
  unfold updEntry
  by_cases hk : p.1 = k <;> simp [hk]

theorem lookup_map_updEntry {α : Type} (l : List (ℕ × α)) (k : ℕ) (f : α → α) (c : ℕ) :
    (l.map (updEntry k f)).lookup c =
      if c = k then (l.lookup c).map f else l.lookup c := by
  induction l with
  | nil => simp [List.lookup]
  | cons p t ih =>
    rw [List.map_cons]
    by_cases hcp : c = p.1
    · rw [lookup_cons_eq _ _ (hcp.trans (updEntry_fst k f p).symm), lookup_cons_eq p t hcp]
      by_cases hpk : p.1 = k
      · rw [if_pos (hcp.trans hpk)]
        unfold updEntry
        rw [if_pos hpk]
        rfl
      · rw [if_neg (fun h => hpk (hcp.symm.trans h))]
        unfold updEntry
        rw [if_neg hpk]
    · rw [lookup_cons_ne p t hcp,
        lookup_cons_ne _ _ (fun h => hcp (h.trans (updEntry_fst k f p))), ih]

theorem lookup_append_some {α : Type} {l1 l2 : List (ℕ × α)} {k : ℕ} {v : α}
    (h : l1.lookup k = some v) : (l1 ++ l2).lookup k = some v := by
  induction l1 with
  | nil => simp [List.lookup] at h
  | cons p t ih =>
    rw [List.cons_append]
    by_cases hk : k = p.1
    · rw [lookup_cons_eq p t hk] at h
      rw [lookup_cons_eq p _ hk]
      exact h
    · rw [lookup_cons_ne p t hk] at h
      rw [lookup_cons_ne p _ hk]
      exact ih h

theorem lookup_append_none {α : Type} {l1 l2 : List (ℕ × α)} {k : ℕ}
    (h : l1.lookup k = none) : (l1 ++ l2).lookup k = l2.lookup k := by
  induction l1 with
  | nil => simp
  | cons p t ih =>
    rw [List.cons_append]
    by_cases hk : k = p.1
    · rw [lookup_cons_eq p t hk] at h
      cases h
    · rw [lookup_cons_ne p t hk] at h
      rw [lookup_cons_ne p _ hk]
      exact ih h

/-! ### Rounding and sampling lemmas -/

theorem roundHalfEven_def (q : ℚ) : roundHalfEven q =
    if q - ⌊q⌋ < 1 / 2 then ⌊q⌋
    else if 1 / 2 < q - ⌊q⌋ then ⌊q⌋ + 1
    else if ⌊q⌋ % 2 = 0 then ⌊q⌋ else ⌊q⌋ + 1 := by
  unfold roundHalfEven
  rw [qSub_eq, mkRat_half]

theorem roundHalfUp_def (q : ℚ) : roundHalfUp q =
    if 0 ≤ q then ⌊q + 1 / 2⌋ else -⌊-q + 1 / 2⌋ := by
  unfold roundHalfUp
  rw [qAdd_eq, qAdd_eq, mkRat_half]

theorem quant4_def (q : ℚ) : quant4 q = roundHalfEven (q * 10000) := by
  unfold quant4
  rw [qMul_eq]

theorem floor_le_roundHalfEven (q : ℚ) : ⌊q⌋ ≤ roundHalfEven q := by
  unfold roundHalfEven
  split_ifs <;> omega

theorem roundHalfEven_le_floor_add_one (q : ℚ) : roundHalfEven q ≤ ⌊q⌋ + 1 := by
  unfold roundHalfEven
  split_ifs <;> omega

theorem roundHalfEven_intCast (n : ℤ) : roundHalfEven (n : ℚ) = n := by
  rw [roundHalfEven_def]
  rw [Int.floor_intCast]
  rw [if_pos (by norm_num)]

theorem roundHalfEven_nonneg {q : ℚ} (h : 0 ≤ q) : 0 ≤ roundHalfEven q := by
  have h1 : (0 : ℤ) ≤ ⌊q⌋ := Int.floor_nonneg.mpr h
  have h2 := floor_le_roundHalfEven q
  omega

theorem roundHalfEven_mono {p q : ℚ} (h : p ≤ q) : roundHalfEven p ≤ roundHalfEven q := by
  rcases lt_or_eq_of_le (Int.floor_le_floor h) with hf | hf
  · calc roundHalfEven p ≤ ⌊p⌋ + 1 := roundHalfEven_le_floor_add_one p
      _ ≤ ⌊q⌋ := by omega
      _ ≤ roundHalfEven q := floor_le_roundHalfEven q
  · rw [roundHalfEven_def, roundHalfEven_def]
    rw [← hf]
    split_ifs <;> first | omega | (exfalso; linarith)

theorem roundHalfUp_intCast (n : ℤ) : roundHalfUp (n : ℚ) = n := by
  rw [roundHalfUp_def]
  have hfl : ⌊(n : ℚ) + 1 / 2⌋ = n := by
    rw [show ((n : ℚ) + 1 / 2) = (1 : ℚ) / 2 + n by ring, Int.floor_add_int]
    norm_num
  by_cases hn : (0 : ℚ) ≤ (n : ℚ)
  · rw [if_pos hn, hfl]
  · rw [if_neg hn]
    have : ⌊-(n : ℚ) + 1 / 2⌋ = -n := by
      rw [show (-(n : ℚ) + 1 / 2) = (1 : ℚ) / 2 + (-n : ℤ) by push_cast; ring,
        Int.floor_add_int]
      norm_num
    rw [this]
    omega

theorem le_randint {low high : ℤ} (h : low ≤ high) (v : ℕ) : low ≤ randint low high v := by
  have hm : 0 < high + 1 - low := by omega
  have := Int.emod_nonneg (v : ℤ) (by omega : high + 1 - low ≠ 0)
  unfold randint
  omega

theorem randint_le {low high : ℤ} (h : low ≤ high) (v : ℕ) : randint low high v ≤ high := by
  have hm : 0 < high + 1 - low := by omega
  have := Int.emod_lt_of_pos (v : ℤ) hm
  unfold randint
  omega

theorem quant4_intCast_mul_BPS (n : ℤ) : quant4 ((n : ℚ) * BPS) = n := by
  rw [quant4_def]
  rw [show (n : ℚ) * BPS * 10000 = (n : ℚ) by rw [BPS_eq]; ring]
  exact roundHalfEven_intCast n

theorem quant4_mono {p q : ℚ} (h : p ≤ q) : quant4 p ≤ quant4 q := by
  rw [quant4_def, quant4_def]
  exact roundHalfEven_mono (by
    have h4 : (0 : ℚ) < 10000 := by norm_num
    exact mul_le_mul_of_nonneg_right h (le_of_lt h4))

theorem quant4_nonneg {q : ℚ} (h : 0 ≤ q) : 0 ≤ quant4 q := by
  rw [quant4_def]
  exact roundHalfEven_nonneg (by positivity)

theorem BPS_pos : (0 : ℚ) < BPS := by norm_num [BPS_eq]

/-- For `0 < max` and `min ≤ max`, `decimal_from_range` succeeds and returns
the drawn grid point (the clamp is a no-op and the final half-up quantization
fixes the already-integral value). -/
theorem decimal_from_range_eq {minA maxA : ℚ} (hmax : 0 < maxA) (hle : minA ≤ maxA) (v : ℕ) :
    decimal_from_range minA maxA v =
      .ok ((randint (quant4 minA) (quant4 maxA) v : ℚ) * BPS) := by
  unfold decimal_from_range
  rw [if_neg (not_le.mpr hmax)]
  have hq : ¬ quant4 maxA < quant4 minA := not_lt.mpr (quant4_mono hle)
  simp only [if_neg hq, qMul_eq]
  congr 1
  rw [show ((randint (quant4 minA) (quant4 maxA) v : ℚ) * BPS * 10000)
      = ((randint (quant4 minA) (quant4 maxA) v : ℚ)) by rw [BPS_eq]; ring]
  rw [roundHalfUp_intCast]

theorem decimal_from_range_error_iff (minA maxA : ℚ) (v : ℕ) :
    (∃ e, decimal_from_range minA maxA v = .error e) ↔ maxA ≤ 0 := by
  unfold decimal_from_range
  by_cases h : maxA ≤ 0
  · simp [h]
  · simp [h]

/-! ### held_sum lemmas -/

theorem held_sum_nil (cid : ℕ) : held_sum [] cid = 0 := rfl

theorem held_sum_cons (p : ℕ × DepositRecord) (t : List (ℕ × DepositRecord)) (cid : ℕ) :
    held_sum (p :: t) cid =
      (if p.2.status = .disputed ∧ p.2.client = cid then p.2.amount else 0) +
        held_sum t cid := by
  unfold held_sum
  by_cases h : p.2.status = TxStatus.disputed ∧ p.2.client = cid
  · rw [if_pos h]
    simp [List.filter_cons, h]
  · rw [if_neg h]
    simp [List.filter_cons, h]

theorem held_sum_nonneg {records : List (ℕ × DepositRecord)} (cid : ℕ)
    (h : ∀ p ∈ records, 0 ≤ p.2.amount) : 0 ≤ held_sum records cid := by
  induction records with
  | nil => simp [held_sum_nil]
  | cons p t ih =>
    rw [held_sum_cons]
    have h1 : 0 ≤ p.2.amount := h p (List.mem_cons_self _ _)
    have h2 := ih (fun q hq => h q (List.mem_cons_of_mem _ hq))
    by_cases hc : p.2.status = TxStatus.disputed ∧ p.2.client = cid
    · rw [if_pos hc]; linarith
    · rw [if_neg hc]; linarith

theorem held_sum_append_single (records : List (ℕ × DepositRecord))
    (q : ℕ × DepositRecord) (cid : ℕ) :
    held_sum (records ++ [q]) cid =
      held_sum records cid +
        (if q.2.status = .disputed ∧ q.2.client = cid then q.2.amount else 0) := by
  induction records with
  | nil =>
    rw [List.nil_append, held_sum_cons]
    ring
  | cons p t ih =>
    rw [List.cons_append, held_sum_cons, held_sum_cons, ih]
    ring

theorem map_updEntry_eq_self {α : Type} (l : List (ℕ × α)) (k : ℕ) (f : α → α)
    (h : ∀ p ∈ l, p.1 ≠ k) : l.map (updEntry k f) = l := by
  induction l with
  | nil => rfl
  | cons p t ih =>
    rw [List.map_cons, ih (fun q hq => h q (List.mem_cons_of_mem _ hq))]
    unfold updEntry
    rw [if_neg (h p (List.mem_cons_self _ _))]

theorem held_sum_set_status (records : List (ℕ × DepositRecord)) (tx : ℕ) (st : TxStatus)
    (cid : ℕ) {r : DepositRecord} (hnd : (records.map Prod.fst).Nodup)
    (hr : records.lookup tx = some r) :
    held_sum (records.map (updEntry tx (fun x => { x with status := st }))) cid =
      held_sum records cid
        - (if r.status = .disputed ∧ r.client = cid then r.amount else 0)
        + (if st = .disputed ∧ r.client = cid then r.amount else 0) := by
  induction records with
  | nil => simp [List.lookup] at hr
  | cons p t ih =>
    rw [List.map_cons, List.nodup_cons] at hnd
    by_cases hk : tx = p.1
    · rw [lookup_cons_eq p t hk] at hr
      cases hr
      have ht : t.map (updEntry tx (fun x => { x with status := st })) = t := by
        refine map_updEntry_eq_self t tx _ (fun q hq hqk => ?_)
        exact hnd.1 (List.mem_map.mpr ⟨q, hq, by rw [hqk, hk]⟩)
      rw [List.map_cons, ht, held_sum_cons, held_sum_cons]
      simp only [updEntry, if_pos hk.symm]
      by_cases h1 : p.2.status = TxStatus.disputed ∧ p.2.client = cid <;>
        by_cases h2 : st = TxStatus.disputed ∧ p.2.client = cid <;>
        simp [h1, h2] <;> ring
    · rw [lookup_cons_ne p t hk] at hr
      rw [List.map_cons, held_sum_cons, held_sum_cons, ih hnd.2 hr]
      simp only [updEntry, if_neg (Ne.symm hk)]
      ring

/-! ### Client pool lemmas -/

theorem listChoice_mem {pool : List ℕ} (h : pool ≠ []) (v : ℕ) : listChoice pool v ∈ pool := by
  unfold listChoice
  have hlen : 0 < pool.length := List.length_pos.mpr h
  have hlt : v % pool.length < pool.length := Nat.mod_lt _ hlen
  rw [List.getD_eq_getElem pool 0 hlt]
  exact List.getElem_mem hlt

theorem mem_unlocked_clients {s : FeedBuilder} {cid : ℕ} :
    cid ∈ s.unlocked_clients ↔ ∃ a, (cid, a) ∈ s.accounts ∧ a.locked = false := by
  unfold FeedBuilder.unlocked_clients
  constructor
  · intro h
    rcases List.mem_map.mp h with ⟨p, hp, hfst⟩
    rcases List.mem_filter.mp hp with ⟨hmem, hcond⟩
    refine ⟨p.2, ?_, ?_⟩
    · rw [← hfst]
      simpa using hmem
    · simpa using hcond
  · rintro ⟨a, hmem, hlk⟩
    exact List.mem_map.mpr ⟨(cid, a), List.mem_filter.mpr ⟨hmem, by simp [hlk]⟩, rfl⟩

theorem mem_funded_clients {s : FeedBuilder} {cid : ℕ} :
    cid ∈ s.funded_clients ↔
      ∃ a, (cid, a) ∈ s.accounts ∧ a.locked = false ∧ s.min_amount ≤ a.available := by
  unfold FeedBuilder.funded_clients
  constructor
  · intro h
    rcases List.mem_map.mp h with ⟨p, hp, hfst⟩
    rcases List.mem_filter.mp hp with ⟨hmem, hcond⟩
    simp only [Bool.and_eq_true, Bool.not_eq_true', decide_eq_true_eq] at hcond
    refine ⟨p.2, ?_, hcond.1, hcond.2⟩
    rw [← hfst]
    simpa using hmem
  · rintro ⟨a, hmem, hlk, hav⟩
    exact List.mem_map.mpr ⟨(cid, a), List.mem_filter.mpr ⟨hmem, by simp [hlk, hav]⟩, rfl⟩

theorem unlocked_clients_lookup {s : FeedBuilder} {cid : ℕ}
    (hnd : (s.accounts.map Prod.fst).Nodup) (h : cid ∈ s.unlocked_clients) :
    ∃ a, s.accounts.lookup cid = some a ∧ a.locked = false := by
  rcases mem_unlocked_clients.mp h with ⟨a, hmem, hlk⟩
  exact ⟨a, lookup_eq_some_of_mem_nodup hnd hmem, hlk⟩

theorem funded_clients_lookup {s : FeedBuilder} {cid : ℕ}
    (hnd : (s.accounts.map Prod.fst).Nodup) (h : cid ∈ s.funded_clients) :
    ∃ a, s.accounts.lookup cid = some a ∧ a.locked = false ∧ s.min_amount ≤ a.available := by
  rcases mem_funded_clients.mp h with ⟨a, hmem, hlk, hav⟩
  exact ⟨a, lookup_eq_some_of_mem_nodup hnd hmem, hlk, hav⟩

theorem choose_client_mem {s : FeedBuilder} {rf : Bool} {v : ℕ} {cid : ℕ}
    (h : s.choose_client rf v = some cid) :
    cid ∈ (if rf then s.funded_clients else s.unlocked_clients) := by
  unfold FeedBuilder.choose_client at h
  set pool := if rf then s.funded_clients else s.unlocked_clients with hpool
  by_cases hp : pool.isEmpty
  · rw [if_pos hp] at h
    cases h
  · rw [if_neg hp] at h
    cases h
    exact listChoice_mem (by simpa [List.isEmpty_iff] using hp) v

/-! ### choose_tx lemmas -/

theorem tx_for_unlocked_spec {s : FeedBuilder} {tx : ℕ} (h : s.tx_for_unlocked tx = true) :
    ∃ r, s.deposit_records.lookup tx = some r ∧
      ∃ a, s.accounts.lookup r.client = some a ∧ a.locked = false := by
  unfold FeedBuilder.tx_for_unlocked at h
  cases hr : s.deposit_records.lookup tx with
  | none => simp [hr] at h
  | some r =>
    cases ha : s.accounts.lookup r.client with
    | none => simp [hr, ha] at h
    | some a =>
      simp [hr, ha] at h
      exact ⟨r, rfl, a, ha, h⟩

theorem choose_tx_aux_shrink (s : FeedBuilder) (g : ℕ → ℕ) :
    ∀ (n : ℕ) (pool : List ℕ) (i : ℕ), ((s.choose_tx_aux g n pool i).2.1).Sublist pool := by
  intro n
  induction n with
  | zero =>
    intro pool i
    cases pool with
    | nil => exact List.Sublist.refl _
    | cons x xs => exact List.Sublist.refl _
  | succ n ih =>
    intro pool i
    cases pool with
    | nil => exact List.Sublist.refl _
    | cons x xs =>
      unfold FeedBuilder.choose_tx_aux
      by_cases hel : s.tx_for_unlocked (listChoice (x :: xs) (g i)) = true
      · rw [if_pos hel]
      · rw [if_neg hel]
        exact ((ih _ _).trans (List.erase_sublist _ _))

theorem choose_tx_aux_some (s : FeedBuilder) (g : ℕ → ℕ) :
    ∀ (n : ℕ) (pool : List ℕ) (i : ℕ) {tx : ℕ} {pool' : List ℕ} {i' : ℕ},
      s.choose_tx_aux g n pool i = (some tx, pool', i') →
      tx ∈ pool' ∧ pool'.Sublist pool ∧ s.tx_for_unlocked tx = true := by
  intro n
  induction n with
  | zero =>
    intro pool i tx pool' i' h
    cases pool with
    | nil => cases h
    | cons x xs => cases h
  | succ n ih =>
    intro pool i tx pool' i' h
    cases pool with
    | nil => cases h
    | cons x xs =>
      unfold FeedBuilder.choose_tx_aux at h
      by_cases hel : s.tx_for_unlocked (listChoice (x :: xs) (g i)) = true
      · rw [if_pos hel] at h
        cases h
        exact ⟨listChoice_mem (by simp) _, List.Sublist.refl _, hel⟩
      · rw [if_neg hel] at h
        rcases ih _ _ h with ⟨h1, h2, h3⟩
        exact ⟨h1, h2.trans (List.erase_sublist _ _), h3⟩

theorem choose_tx_shrink (s : FeedBuilder) (g : ℕ → ℕ) (pool : List ℕ) (i : ℕ) :
    ((s.choose_tx g pool i).2.1).Sublist pool :=
  choose_tx_aux_shrink s g _ pool i

theorem choose_tx_some {s : FeedBuilder} {g : ℕ → ℕ} {pool : List ℕ} {i : ℕ}
    {tx : ℕ} {pool' : List ℕ} {i' : ℕ}
    (h : s.choose_tx g pool i = (some tx, pool', i')) :
    tx ∈ pool' ∧ pool'.Sublist pool ∧ s.tx_for_unlocked tx = true :=
  choose_tx_aux_some s g _ pool i h

/-! ### State update helper lemmas -/

theorem lookup_update_account (s : FeedBuilder) (cid : ℕ) (f : ClientAccount → ClientAccount)
    (c : ℕ) :
    (s.update_account cid f).accounts.lookup c =
      if c = cid then (s.accounts.lookup c).map f else s.accounts.lookup c :=
  lookup_map_updEntry s.accounts cid f c

theorem update_account_keys (s : FeedBuilder) (cid : ℕ) (f : ClientAccount → ClientAccount) :
    (s.update_account cid f).accounts.map Prod.fst = s.accounts.map Prod.fst :=
  keys_map_updEntry s.accounts cid f

theorem lookup_set_status (s : FeedBuilder) (tx : ℕ) (st : TxStatus) (k : ℕ) :
    (s.set_status tx st).deposit_records.lookup k =
      if k = tx then (s.deposit_records.lookup k).map (fun r => { r with status := st })
      else s.deposit_records.lookup k :=
  lookup_map_updEntry s.deposit_records tx _ k

theorem set_status_keys (s : FeedBuilder) (tx : ℕ) (st : TxStatus) :
    (s.set_status tx st).deposit_records.map Prod.fst = s.deposit_records.map Prod.fst :=
  keys_map_updEntry s.deposit_records tx _

theorem counter_not_in_rec_keys {s : FeedBuilder} (hinv : BuilderInv s) :
    s.tx_counter ∉ s.deposit_records.map Prod.fst := by
  intro h
  rcases List.mem_map.mp h with ⟨p, hp, hfst⟩
  have := hinv.recFresh p hp
  omega

theorem counter_not_in_posted {s : FeedBuilder} (hinv : BuilderInv s) :
    s.tx_counter ∉ s.posted_txs := by
  intro h
  rcases hinv.postedStatus _ h with ⟨r, hr, _⟩
  have := hinv.recFresh _ (mem_of_lookup_eq_some hr)
  omega

theorem counter_not_in_disputed {s : FeedBuilder} (hinv : BuilderInv s) :
    s.tx_counter ∉ s.disputed_txs := by
  intro h
  rcases hinv.disputedStatus _ h with ⟨r, hr, _⟩
  have := hinv.recFresh _ (mem_of_lookup_eq_some hr)
  omega

theorem grid_add {x y : ℚ} (hx : ∃ m : ℤ, x = (m : ℚ) * BPS) (hy : ∃ n : ℤ, y = (n : ℚ) * BPS) :
    ∃ k : ℤ, x + y = (k : ℚ) * BPS := by
  rcases hx with ⟨m, rfl⟩
  rcases hy with ⟨n, rfl⟩
  exact ⟨m + n, by push_cast; ring⟩

theorem grid_sub {x y : ℚ} (hx : ∃ m : ℤ, x = (m : ℚ) * BPS) (hy : ∃ n : ℤ, y = (n : ℚ) * BPS) :
    ∃ k : ℤ, x - y = (k : ℚ) * BPS := by
  rcases hx with ⟨m, rfl⟩
  rcases hy with ⟨n, rfl⟩
  exact ⟨m - n, by push_cast; ring⟩

/-! ### PoolShrink lemmas -/

theorem builderInv_poolShrink {s s1 : FeedBuilder} (hinv : BuilderInv s)
    (hps : PoolShrink s s1) : BuilderInv s1 := by
  refine ⟨?_, ?_, ?_, ?_, ?_, ?_, ?_, ?_, ?_, ?_, ?_, ?_, ?_, ?_⟩
  · rw [hps.acc]; exact hinv.nodupAcc
  · rw [hps.recs]; exact hinv.nodupRec
  · exact hinv.nodupPosted.sublist hps.posted
  · exact hinv.nodupDisputed.sublist hps.disputed
  · intro tx htx
    rw [hps.recs]
    exact hinv.postedStatus tx (hps.posted.subset htx)
  · intro tx htx
    rw [hps.recs]
    exact hinv.disputedStatus tx (hps.disputed.subset htx)
  · intro p hp
    rw [hps.acc]
    exact hinv.recClient p (by rw [← hps.recs]; exact hp)
  · intro p hp
    rw [hps.ctr]
    exact hinv.recFresh p (by rw [← hps.recs]; exact hp)
  · intro p hp
    exact hinv.amountsNonneg p (by rw [← hps.recs]; exact hp)
  · intro p hp
    exact hinv.amountsGrid p (by rw [← hps.recs]; exact hp)
  · intro p hp
    exact hinv.availGrid p (by rw [← hps.acc]; exact hp)
  · intro cid a ha
    rw [hps.recs]
    exact hinv.heldEq cid a (by rw [← hps.acc]; exact ha)
  · rw [hps.mn]; exact hinv.minPos
  · rw [hps.mn, hps.mx]; exact hinv.maxGtMin

theorem nextSound_poolShrink {s s1 s' : FeedBuilder} {row : Row}
    (hps : PoolShrink s s1) (hns : NextSound s1 row s') : NextSound s row s' := by
  refine ⟨hns.inv', ?_, ?_, ?_, hns.cbLocks, ?_, ?_, hns.depAmt, ?_, ?_, hns.wdAvail, ?_⟩
  · rw [hns.keys, hps.acc]
  · intro c a a' ha ha'
    exact hns.lockMono c a a' (by rw [hps.acc]; exact ha) ha'
  · rcases hns.clientOk with ⟨a, ha, hl⟩
    exact ⟨a, by rw [← hps.acc]; exact ha, hl⟩
  · intro h
    rcases hns.dwTx h with ⟨h1, h2⟩
    exact ⟨by rw [← hps.ctr]; exact h1, by rw [← hps.ctr]; exact h2⟩
  · intro h
    rcases hns.refTx h with ⟨h1, ⟨r, hr, hc⟩⟩
    exact ⟨by rw [← hps.ctr]; exact h1, ⟨r, by rw [← hps.recs]; exact hr, hc⟩⟩
  · intro tx r hr
    exact hns.recKeep tx r (by rw [hps.recs]; exact hr)
  · intro tx r' hr'
    rcases hns.recNew tx r' hr' with ⟨r, hr, hc, ham⟩ | hnew
    · exact Or.inl ⟨r, by rw [← hps.recs]; exact hr, hc, ham⟩
    · exact Or.inr hnew
  · intro h
    rcases hns.depAvail h with ⟨a, a', ha, ha', hle⟩
    exact ⟨a, a', by rw [← hps.acc]; exact ha, ha', hle⟩

/-! ### Operation soundness: deposit -/

theorem random_deposit_sound {s : FeedBuilder} {cid : ℕ} {v : ℕ} {row : Row} {s' : FeedBuilder}
    (hinv : BuilderInv s) (hcid : cid ∈ s.unlocked_clients)
    (h : s.random_deposit cid v = .ok (row, s')) : NextSound s row s' := by
  have hmax : (0 : ℚ) < s.max_amount := lt_trans hinv.minPos hinv.maxGtMin
  have hle : s.min_amount ≤ s.max_amount := le_of_lt hinv.maxGtMin
  have hql : quant4 s.min_amount ≤ quant4 s.max_amount := quant4_mono hle
  simp only [FeedBuilder.random_deposit, decimal_from_range_eq hmax hle v] at h
  set n := randint (quant4 s.min_amount) (quant4 s.max_amount) v with hn
  have hn0 : 0 ≤ n :=
    le_trans (quant4_nonneg (le_of_lt hinv.minPos)) (le_randint hql v)
  have hamt0 : (0 : ℚ) ≤ (n : ℚ) * BPS :=
    mul_nonneg (by exact_mod_cast hn0) (le_of_lt BPS_pos)
  rcases unlocked_clients_lookup hinv.nodupAcc hcid with ⟨a0, ha0, hlk0⟩
  have hctrrec : s.deposit_records.lookup s.tx_counter = none :=
    lookup_eq_none_of_not_mem_keys (counter_not_in_rec_keys hinv)
  simp only [Except.ok.injEq, Prod.mk.injEq] at h
  obtain ⟨hrow, hs'⟩ := h
  subst hrow
  subst hs'
  constructor
  case keys => exact update_account_keys s cid _
  case lockMono =>
    intro c a a' ha ha'
    rw [lookup_update_account] at ha'
    by_cases hc : c = cid
    · rw [if_pos hc, ha] at ha'
      cases ha'
      exact fun h => h
    · rw [if_neg hc, ha] at ha'
      cases ha'
      exact fun h => h
  case clientOk => exact ⟨a0, ha0, hlk0⟩
  case cbLocks => intro hk; exact RowKind.noConfusion hk
  case dwTx => intro _; exact ⟨rfl, rfl⟩
  case refTx => rintro (hk | hk | hk) <;> exact RowKind.noConfusion hk
  case depAmt => intro _; exact ⟨(n : ℚ) * BPS, rfl⟩
  case recKeep =>
    intro tx r hr
    exact ⟨r, lookup_append_some hr, rfl, rfl⟩
  case recNew =>
    intro tx r' hr'
    replace hr' : List.lookup tx (s.deposit_records ++
        [(s.tx_counter, (⟨cid, (n : ℚ) * BPS, .posted⟩ : DepositRecord))]) = some r' := hr'
    cases hop : s.deposit_records.lookup tx with
    | some r =>
      have h2 : (s.deposit_records ++
          [(s.tx_counter, (⟨cid, (n : ℚ) * BPS, .posted⟩ : DepositRecord))]).lookup tx =
            some r := lookup_append_some hop
      rw [h2] at hr'
      injection hr' with hr2
      exact Or.inl ⟨r, rfl, by rw [hr2], by rw [hr2]⟩
    | none =>
      rw [lookup_append_none hop] at hr'
      by_cases htx : tx = s.tx_counter
      · rw [lookup_cons_eq _ _ htx] at hr'
        cases hr'
        exact Or.inr ⟨rfl, htx, rfl, rfl⟩
      · rw [lookup_cons_ne _ _ htx] at hr'
        cases hr'
  case wdAvail => intro hk; exact RowKind.noConfusion hk
  case depAvail =>
    intro _
    refine ⟨a0, { a0 with available := qAdd a0.available ((n : ℚ) * BPS) }, ha0, ?_, by
      simp only [qAdd_eq]; linarith⟩
    rw [lookup_update_account, if_pos rfl, ha0]
    rfl
  case inv' =>
    constructor
    case nodupAcc => rw [update_account_keys]; exact hinv.nodupAcc
    case nodupRec =>
      rw [List.map_append]
      refine hinv.nodupRec.append (by simp) ?_
      intro x hx hx'
      simp at hx'
      rw [hx'] at hx
      exact counter_not_in_rec_keys hinv hx
    case nodupPosted =>
      refine hinv.nodupPosted.append (by simp) ?_
      intro x hx hx'
      simp at hx'
      rw [hx'] at hx
      exact counter_not_in_posted hinv hx
    case nodupDisputed => exact hinv.nodupDisputed
    case postedStatus =>
      intro tx htx
      rcases List.mem_append.mp htx with hm | hm
      · rcases hinv.postedStatus tx hm with ⟨r, hr, hst⟩
        exact ⟨r, lookup_append_some hr, hst⟩
      · rcases List.mem_singleton.mp hm with rfl
        refine ⟨⟨cid, (n : ℚ) * BPS, .posted⟩, ?_, rfl⟩
        show List.lookup s.tx_counter (s.deposit_records ++
            [(s.tx_counter, (⟨cid, (n : ℚ) * BPS, .posted⟩ : DepositRecord))]) =
          some ⟨cid, (n : ℚ) * BPS, .posted⟩
        rw [lookup_append_none hctrrec]
        exact lookup_cons_eq _ _ rfl
    case disputedStatus =>
      intro tx htx
      rcases hinv.disputedStatus tx htx with ⟨r, hr, hst⟩
      exact ⟨r, lookup_append_some hr, hst⟩
    case recClient =>
      intro p hp
      rcases List.mem_append.mp hp with hm | hm
      · rcases hinv.recClient p hm with ⟨a, ha⟩
        rw [lookup_update_account]
        by_cases hc : p.2.client = cid
        · rw [if_pos hc, ha]
          exact ⟨_, rfl⟩
        · rw [if_neg hc, ha]
          exact ⟨a, rfl⟩
      · rcases List.mem_singleton.mp hm with rfl
        show ∃ a, List.lookup cid ((s.update_account cid (fun a =>
            { a with available := qAdd a.available ((n : ℚ) * BPS) })).accounts) = some a
        rw [lookup_update_account, if_pos rfl, ha0]
        exact ⟨_, rfl⟩
    case recFresh =>
      intro p hp
      rcases List.mem_append.mp hp with hm | hm
      · have := hinv.recFresh p hm
        simp only []
        omega
      · rcases List.mem_singleton.mp hm with rfl
        simp only []
        omega
    case amountsNonneg =>
      intro p hp
      rcases List.mem_append.mp hp with hm | hm
      · exact hinv.amountsNonneg p hm
      · rcases List.mem_singleton.mp hm with rfl
        exact hamt0
    case amountsGrid =>
      intro p hp
      rcases List.mem_append.mp hp with hm | hm
      · exact hinv.amountsGrid p hm
      · rcases List.mem_singleton.mp hm with rfl
        exact ⟨n, rfl⟩
    case availGrid =>
      intro p hp
      rcases List.mem_map.mp hp with ⟨q, hq, rfl⟩
      unfold updEntry
      by_cases hc : q.1 = cid
      · rw [if_pos hc]
        show ∃ k : ℤ, qAdd q.2.available ((n : ℚ) * BPS) = (k : ℚ) * BPS
        rw [qAdd_eq]
        exact grid_add (hinv.availGrid q hq) ⟨n, rfl⟩
      · rw [if_neg hc]
        exact hinv.availGrid q hq
    case heldEq =>
      intro c a' ha'
      rw [lookup_update_account] at ha'
      rw [held_sum_append_single]
      have hnotdisp : ¬((⟨cid, (n : ℚ) * BPS, TxStatus.posted⟩ : DepositRecord).status =
          TxStatus.disputed ∧
          (⟨cid, (n : ℚ) * BPS, TxStatus.posted⟩ : DepositRecord).client = c) := by
        intro hcon
        exact TxStatus.noConfusion hcon.1
      rw [if_neg hnotdisp, add_zero]
      by_cases hc : c = cid
      · rw [if_pos hc] at ha'
        cases hlc : s.accounts.lookup c with
        | none => rw [hlc] at ha'; cases ha'
        | some a =>
          rw [hlc] at ha'
          cases ha'
          exact hinv.heldEq c a hlc
      · rw [if_neg hc] at ha'
        exact hinv.heldEq c a' ha'
    case minPos => exact hinv.minPos
    case maxGtMin => exact hinv.maxGtMin

/-! ### Operation soundness: withdrawal -/

theorem random_withdrawal_funded_ok {s : FeedBuilder} {cid : ℕ} (v : ℕ)
    (hinv : BuilderInv s) (hfund : cid ∈ s.funded_clients) :
    ∃ pr, s.random_withdrawal cid v = .ok pr := by
  rcases funded_clients_lookup hinv.nodupAcc hfund with ⟨a, ha, _, hav⟩
  have hge : s.min_amount ≤ min a.available s.max_amount :=
    le_min hav (le_of_lt hinv.maxGtMin)
  have hpos : (0 : ℚ) < min a.available s.max_amount := lt_of_lt_of_le hinv.minPos hge
  cases hres : s.random_withdrawal cid v with
  | ok pr => exact ⟨pr, rfl⟩
  | error e =>
    simp only [FeedBuilder.random_withdrawal, FeedBuilder.get_account, ha, Option.getD_some,
      if_neg (not_lt.mpr hge), decimal_from_range_eq hpos hge v] at hres
    cases hres

theorem random_withdrawal_sound {s : FeedBuilder} {cid : ℕ} {v : ℕ} {row : Row}
    {s' : FeedBuilder} (hinv : BuilderInv s) (hfund : cid ∈ s.funded_clients)
    (h : s.random_withdrawal cid v = .ok (row, s')) : NextSound s row s' := by
  rcases funded_clients_lookup hinv.nodupAcc hfund with ⟨a, ha, hlk, hav⟩
  simp only [FeedBuilder.random_withdrawal, FeedBuilder.get_account, ha, Option.getD_some] at h
  by_cases hlt : min a.available s.max_amount < s.min_amount
  · rw [if_pos hlt] at h
    cases h
  · rw [if_neg hlt] at h
    have hge := not_lt.mp hlt
    have hpos : (0 : ℚ) < min a.available s.max_amount := lt_of_lt_of_le hinv.minPos hge
    rw [decimal_from_range_eq hpos hge v] at h
    set n := randint (quant4 s.min_amount) (quant4 (min a.available s.max_amount)) v with hn
    have hql : quant4 s.min_amount ≤ quant4 (min a.available s.max_amount) := quant4_mono hge
    have hn0 : 0 ≤ n :=
      le_trans (quant4_nonneg (le_of_lt hinv.minPos)) (le_randint hql v)
    have hamt0 : (0 : ℚ) ≤ (n : ℚ) * BPS :=
      mul_nonneg (by exact_mod_cast hn0) (le_of_lt BPS_pos)
    rcases hinv.availGrid (cid, a) (mem_of_lookup_eq_some ha) with ⟨m, hm⟩
    have hnm : n ≤ m := by
      have h1 : randint (quant4 s.min_amount) (quant4 (min a.available s.max_amount)) v ≤
          quant4 (min a.available s.max_amount) := randint_le hql v
      have h2 : quant4 (min a.available s.max_amount) ≤ quant4 a.available :=
        quant4_mono (min_le_left _ _)
      have h3 : quant4 a.available = m := by
        rw [hm]
        exact quant4_intCast_mul_BPS m
      omega
    have havail' : (0 : ℚ) ≤ a.available - (n : ℚ) * BPS := by
      rw [hm, show (m : ℚ) * BPS - (n : ℚ) * BPS = ((m - n : ℤ) : ℚ) * BPS by push_cast; ring]
      exact mul_nonneg (by exact_mod_cast sub_nonneg.mpr hnm) (le_of_lt BPS_pos)
    simp only [Except.ok.injEq, Prod.mk.injEq] at h
    obtain ⟨hrow, hs'⟩ := h
    subst hrow
    subst hs'
    refine NextSound.mk ?_ ?_ ?_ ?_ ?_ ?_ ?_ ?_ ?_ ?_ ?_ ?_
    · refine BuilderInv.mk ?_ ?_ ?_ ?_ ?_ ?_ ?_ ?_ ?_ ?_ ?_ ?_ ?_ ?_
      · rw [update_account_keys]; exact hinv.nodupAcc
      · exact hinv.nodupRec
      · exact hinv.nodupPosted
      · exact hinv.nodupDisputed
      · exact hinv.postedStatus
      · exact hinv.disputedStatus
      · intro p hp
        rcases hinv.recClient p hp with ⟨b, hb⟩
        rw [lookup_update_account]
        by_cases hc : p.2.client = cid
        · rw [if_pos hc, hb]
          exact ⟨_, rfl⟩
        · rw [if_neg hc, hb]
          exact ⟨b, rfl⟩
      · intro p hp
        have := hinv.recFresh p hp
        show p.1 < s.tx_counter + 1
        omega
      · exact hinv.amountsNonneg
      · exact hinv.amountsGrid
      · intro p hp
        rcases List.mem_map.mp hp with ⟨q, hq, rfl⟩
        unfold updEntry
        by_cases hc : q.1 = cid
        · rw [if_pos hc]
          show ∃ k : ℤ, qSub q.2.available ((n : ℚ) * BPS) = (k : ℚ) * BPS
          rw [qSub_eq]
          exact grid_sub (hinv.availGrid q hq) ⟨n, rfl⟩
        · rw [if_neg hc]
          exact hinv.availGrid q hq
      · intro c b hb
        rw [lookup_update_account] at hb
        by_cases hc : c = cid
        · rw [if_pos hc] at hb
          cases hlc : s.accounts.lookup c with
          | none => rw [hlc] at hb; cases hb
          | some b0 =>
            rw [hlc] at hb
            cases hb
            exact hinv.heldEq c b0 hlc
        · rw [if_neg hc] at hb
          exact hinv.heldEq c b hb
      · exact hinv.minPos
      · exact hinv.maxGtMin
    · exact update_account_keys s cid _
    · intro c b b' hb hb'
      rw [lookup_update_account] at hb'
      by_cases hc : c = cid
      · rw [if_pos hc, hb] at hb'
        cases hb'
        exact fun hh => hh
      · rw [if_neg hc, hb] at hb'
        cases hb'
        exact fun hh => hh
    · exact ⟨a, ha, hlk⟩
    · intro hk; exact RowKind.noConfusion hk
    · intro _; exact ⟨rfl, rfl⟩
    · rintro (hk | hk | hk) <;> exact RowKind.noConfusion hk
    · intro hk; exact RowKind.noConfusion hk
    · intro tx r hr
      exact ⟨r, hr, rfl, rfl⟩
    · intro tx r' hr'
      exact Or.inl ⟨r', hr', rfl, rfl⟩
    · intro _
      refine ⟨{ a with available := qSub a.available ((n : ℚ) * BPS) }, ?_, by
        show (0 : ℚ) ≤ qSub a.available ((n : ℚ) * BPS)
        rw [qSub_eq]; exact havail'⟩
      show List.lookup cid ((s.update_account cid (fun b =>
          { b with available := qSub b.available ((n : ℚ) * BPS) })).accounts) = _
      rw [lookup_update_account, if_pos rfl, ha]
      rfl
    · intro hk; exact RowKind.noConfusion hk

/-! ### Operation soundness: dispute -/

theorem dispute_none {s : FeedBuilder} {g : ℕ → ℕ} {i : ℕ} {s' : FeedBuilder} {i' : ℕ}
    (h : s.dispute g i = (none, s', i')) : PoolShrink s s' := by
  rcases hct : s.choose_tx g s.posted_txs i with ⟨otx, pool, i0⟩
  have hsub : pool.Sublist s.posted_txs := by
    have := choose_tx_shrink s g s.posted_txs i
    rw [hct] at this
    exact this
  cases otx with
  | none =>
    simp only [FeedBuilder.dispute, hct] at h
    injection h with h1 h23
    injection h23 with h2 h3
    subst h2
    exact ⟨rfl, rfl, rfl, rfl, rfl, hsub, List.Sublist.refl _⟩
  | some tx =>
    simp only [FeedBuilder.dispute, hct] at h
    cases hr : List.lookup tx s.deposit_records with
    | none =>
      rw [hr] at h
      injection h with h1 h23
      injection h23 with h2 h3
      subst h2
      exact ⟨rfl, rfl, rfl, rfl, rfl, (List.erase_sublist _ _).trans hsub, List.Sublist.refl _⟩
    | some r =>
      rw [hr] at h
      injection h with h1 h23
      exact Option.noConfusion h1

theorem dispute_sound {s : FeedBuilder} {g : ℕ → ℕ} {i : ℕ} {row : Row} {s' : FeedBuilder}
    {i' : ℕ} (hinv : BuilderInv s) (h : s.dispute g i = (some row, s', i')) :
    NextSound s row s' := by
  rcases hct : s.choose_tx g s.posted_txs i with ⟨otx, pool, i0⟩
  cases otx with
  | none =>
    simp only [FeedBuilder.dispute, hct] at h
    injection h with h1 _
    exact Option.noConfusion h1
  | some tx =>
    rcases choose_tx_some hct with ⟨hmem, hsub, hel⟩
    rcases tx_for_unlocked_spec hel with ⟨r, hr, acc, hacc, hlk⟩
    have htxp : tx ∈ s.posted_txs := hsub.subset hmem
    have hpnd : pool.Nodup := hinv.nodupPosted.sublist hsub
    have hstp : r.status = TxStatus.posted := by
      rcases hinv.postedStatus tx htxp with ⟨r0, hr0, hst0⟩
      rw [hr] at hr0
      injection hr0 with he
      rw [he]
      exact hst0
    have htxnd : tx ∉ s.disputed_txs := by
      intro hmem'
      rcases hinv.disputedStatus tx hmem' with ⟨r1, hr1, hst1⟩
      rw [hr] at hr1
      injection hr1 with he
      rw [← he] at hst1
      rw [hstp] at hst1
      exact TxStatus.noConfusion hst1
    have hrecmem : (tx, r) ∈ s.deposit_records := mem_of_lookup_eq_some hr
    simp only [FeedBuilder.dispute, hct] at h
    rw [hr] at h
    injection h with h1 h23
    injection h23 with h2 h3
    injection h1 with h1
    subst h1
    subst h2
    refine NextSound.mk ?_ ?_ ?_ ?_ ?_ ?_ ?_ ?_ ?_ ?_ ?_ ?_
    · -- BuilderInv of the post state
      refine BuilderInv.mk ?_ ?_ ?_ ?_ ?_ ?_ ?_ ?_ ?_ ?_ ?_ ?_ ?_ ?_
      · show ((s.accounts.map (updEntry r.client fun acc0 =>
            { acc0 with available := qSub acc0.available r.amount,
                        held := qAdd acc0.held r.amount })).map Prod.fst).Nodup
        rw [keys_map_updEntry]
        exact hinv.nodupAcc
      · show ((s.deposit_records.map (updEntry tx fun x =>
            { x with status := TxStatus.disputed })).map Prod.fst).Nodup
        rw [keys_map_updEntry]
        exact hinv.nodupRec
      · show (pool.erase tx).Nodup
        exact hpnd.erase tx
      · show (s.disputed_txs ++ [tx]).Nodup
        refine hinv.nodupDisputed.append (by simp) ?_
        intro x hx hx'
        simp at hx'
        rw [hx'] at hx
        exact htxnd hx
      · intro t ht
        replace ht : t ∈ pool.erase tx := ht
        rcases (List.Nodup.mem_erase_iff hpnd).mp ht with ⟨htne, htpool⟩
        rcases hinv.postedStatus t (hsub.subset htpool) with ⟨r1, hr1, hst1⟩
        refine ⟨r1, ?_, hst1⟩
        show (s.deposit_records.map (updEntry tx fun x =>
            { x with status := TxStatus.disputed })).lookup t = some r1
        rw [lookup_map_updEntry, if_neg htne, hr1]
      · intro t ht
        replace ht : t ∈ s.disputed_txs ++ [tx] := ht
        rcases List.mem_append.mp ht with hm | hm
        · rcases hinv.disputedStatus t hm with ⟨r1, hr1, hst1⟩
          have htne : t ≠ tx := fun he => htxnd (he ▸ hm)
          refine ⟨r1, ?_, hst1⟩
          show (s.deposit_records.map (updEntry tx fun x =>
              { x with status := TxStatus.disputed })).lookup t = some r1
          rw [lookup_map_updEntry, if_neg htne, hr1]
        · rcases List.mem_singleton.mp hm with rfl
          refine ⟨{ r with status := TxStatus.disputed }, ?_, rfl⟩
          show (s.deposit_records.map (updEntry t fun x =>
              { x with status := TxStatus.disputed })).lookup t =
            some { r with status := TxStatus.disputed }
          rw [lookup_map_updEntry, if_pos rfl, hr]
          rfl
      · intro p hp
        replace hp : p ∈ s.deposit_records.map (updEntry tx fun x =>
            { x with status := TxStatus.disputed }) := hp
        rcases List.mem_map.mp hp with ⟨q, hq, rfl⟩
        have hcl : (updEntry tx (fun x => { x with status := TxStatus.disputed }) q).2.client =
            q.2.client := by
          unfold updEntry
          by_cases hc : q.1 = tx <;> simp [hc]
        rw [hcl]
        rcases hinv.recClient q hq with ⟨b, hb⟩
        show ∃ a1, (s.accounts.map (updEntry r.client fun acc0 =>
            { acc0 with available := qSub acc0.available r.amount,
                        held := qAdd acc0.held r.amount })).lookup q.2.client = some a1
        rw [lookup_map_updEntry]
        by_cases hc : q.2.client = r.client
        · rw [if_pos hc, hb]
          exact ⟨_, rfl⟩
        · rw [if_neg hc, hb]
          exact ⟨b, rfl⟩
      · intro p hp
        replace hp : p ∈ s.deposit_records.map (updEntry tx fun x =>
            { x with status := TxStatus.disputed }) := hp
        rcases List.mem_map.mp hp with ⟨q, hq, rfl⟩
        show (updEntry tx (fun x => { x with status := TxStatus.disputed }) q).1 < s.tx_counter
        rw [updEntry_fst]
        exact hinv.recFresh q hq
      · intro p hp
        replace hp : p ∈ s.deposit_records.map (updEntry tx fun x =>
            { x with status := TxStatus.disputed }) := hp
        rcases List.mem_map.mp hp with ⟨q, hq, rfl⟩
        have ham : (updEntry tx (fun x => { x with status := TxStatus.disputed }) q).2.amount =
            q.2.amount := by
          unfold updEntry
          by_cases hc : q.1 = tx <;> simp [hc]
        rw [ham]
        exact hinv.amountsNonneg q hq
      · intro p hp
        replace hp : p ∈ s.deposit_records.map (updEntry tx fun x =>
            { x with status := TxStatus.disputed }) := hp
        rcases List.mem_map.mp hp with ⟨q, hq, rfl⟩
        have ham : (updEntry tx (fun x => { x with status := TxStatus.disputed }) q).2.amount =
            q.2.amount := by
          unfold updEntry
          by_cases hc : q.1 = tx <;> simp [hc]
        rw [ham]
        exact hinv.amountsGrid q hq
      · intro p hp
        replace hp : p ∈ s.accounts.map (updEntry r.client fun acc0 =>
            { acc0 with available := qSub acc0.available r.amount,
                        held := qAdd acc0.held r.amount }) := hp
        rcases List.mem_map.mp hp with ⟨q, hq, rfl⟩
        unfold updEntry
        by_cases hc : q.1 = r.client
        · rw [if_pos hc]
          show ∃ k : ℤ, qSub q.2.available r.amount = (k : ℚ) * BPS
          rw [qSub_eq]
          exact grid_sub (hinv.availGrid q hq) (hinv.amountsGrid (tx, r) hrecmem)
        · rw [if_neg hc]
          exact hinv.availGrid q hq
      · intro c a' ha'
        replace ha' : (s.accounts.map (updEntry r.client fun acc0 =>
            { acc0 with available := qSub acc0.available r.amount,
                        held := qAdd acc0.held r.amount })).lookup c = some a' := ha'
        show a'.held = held_sum (s.deposit_records.map (updEntry tx fun x =>
            { x with status := TxStatus.disputed })) c
        rw [held_sum_set_status s.deposit_records tx TxStatus.disputed c hinv.nodupRec hr]
        have hite1 : (if r.status = TxStatus.disputed ∧ r.client = c then r.amount else 0) = 0 := by
          rw [if_neg]
          intro hcon
          rw [hstp] at hcon
          exact TxStatus.noConfusion hcon.1
        rw [hite1, sub_zero, lookup_map_updEntry] at *
        by_cases hc : c = r.client
        · rw [if_pos hc] at ha'
          rw [hc] at ha' ⊢
          rw [hacc] at ha'
          injection ha' with ha'
          rw [← ha']
          rw [if_pos ⟨rfl, rfl⟩]
          have := hinv.heldEq r.client acc hacc
          simp only []
          rw [this, qAdd_eq]
        · rw [if_neg hc] at ha'
          rw [if_neg (fun hcon => hc hcon.2.symm), add_zero]
          exact hinv.heldEq c a' ha'
      · exact hinv.minPos
      · exact hinv.maxGtMin
    · show (s.accounts.map (updEntry r.client fun acc0 =>
          { acc0 with available := qSub acc0.available r.amount,
                      held := qAdd acc0.held r.amount })).map Prod.fst = s.accounts.map Prod.fst
      exact keys_map_updEntry _ _ _
    · intro c b b' hb hb'
      replace hb' : (s.accounts.map (updEntry r.client fun acc0 =>
          { acc0 with available := qSub acc0.available r.amount,
                      held := qAdd acc0.held r.amount })).lookup c = some b' := hb'
      rw [lookup_map_updEntry] at hb'
      by_cases hc : c = r.client
      · rw [if_pos hc, hb] at hb'
        injection hb' with hb'
        rw [← hb']
        exact fun hh => hh
      · rw [if_neg hc, hb] at hb'
        injection hb' with hb'
        rw [← hb']
        exact fun hh => hh
    · exact ⟨acc, hacc, hlk⟩
    · intro hk; exact RowKind.noConfusion hk
    · rintro (hk | hk) <;> exact RowKind.noConfusion hk
    · intro _
      exact ⟨rfl, r, hr, rfl⟩
    · intro hk; exact RowKind.noConfusion hk
    · intro t r0 hr0
      refine ⟨(updEntry tx (fun x => { x with status := TxStatus.disputed }) (t, r0)).2, ?_, ?_, ?_⟩
      · show (s.deposit_records.map (updEntry tx fun x =>
            { x with status := TxStatus.disputed })).lookup t = _
        rw [lookup_map_updEntry]
        unfold updEntry
        by_cases hc : t = tx
        · rw [if_pos hc, hr0]
          simp [hc]
        · rw [if_neg hc, hr0]
          simp [hc]
      · unfold updEntry
        by_cases hc : t = tx <;> simp [hc]
      · unfold updEntry
        by_cases hc : t = tx <;> simp [hc]
    · intro t r' hr'
      replace hr' : (s.deposit_records.map (updEntry tx fun x =>
          { x with status := TxStatus.disputed })).lookup t = some r' := hr'
      rw [lookup_map_updEntry] at hr'
      by_cases hc : t = tx
      · rw [if_pos hc] at hr'
        rw [hc] at hr' ⊢
        rw [hr] at hr'
        injection hr' with hr'
        exact Or.inl ⟨r, hr, by rw [← hr'], by rw [← hr']⟩
      · rw [if_neg hc] at hr'
        exact Or.inl ⟨r', hr', rfl, rfl⟩
    · intro hk; exact RowKind.noConfusion hk
    · intro hk; exact RowKind.noConfusion hk

/-! ### Operation soundness: resolve -/

theorem resolve_none {s : FeedBuilder} {g : ℕ → ℕ} {i : ℕ} {s' : FeedBuilder} {i' : ℕ}
    (h : s.resolve g i = (none, s', i')) : PoolShrink s s' := by
  rcases hct : s.choose_tx g s.disputed_txs i with ⟨otx, pool, i0⟩
  have hsub : pool.Sublist s.disputed_txs := by
    have := choose_tx_shrink s g s.disputed_txs i
    rw [hct] at this
    exact this
  cases otx with
  | none =>
    simp only [FeedBuilder.resolve, hct] at h
    injection h with h1 h23
    injection h23 with h2 h3
    subst h2
    exact ⟨rfl, rfl, rfl, rfl, rfl, List.Sublist.refl _, hsub⟩
  | some tx =>
    simp only [FeedBuilder.resolve, hct] at h
    cases hr : List.lookup tx s.deposit_records with
    | none =>
      rw [hr] at h
      injection h with h1 h23
      injection h23 with h2 h3
      subst h2
      exact ⟨rfl, rfl, rfl, rfl, rfl, List.Sublist.refl _,
        (List.erase_sublist _ _).trans hsub⟩
    | some r =>
      rw [hr] at h
      injection h with h1 h23
      exact Option.noConfusion h1

theorem resolve_sound {s : FeedBuilder} {g : ℕ → ℕ} {i : ℕ} {row : Row} {s' : FeedBuilder}
    {i' : ℕ} (hinv : BuilderInv s) (h : s.resolve g i = (some row, s', i')) :
    NextSound s row s' := by
  rcases hct : s.choose_tx g s.disputed_txs i with ⟨otx, pool, i0⟩
  cases otx with
  | none =>
    simp only [FeedBuilder.resolve, hct] at h
    injection h with h1 _
    exact Option.noConfusion h1
  | some tx =>
    rcases choose_tx_some hct with ⟨hmem, hsub, hel⟩
    rcases tx_for_unlocked_spec hel with ⟨r, hr, acc, hacc, hlk⟩
    have htxd : tx ∈ s.disputed_txs := hsub.subset hmem
    have hpnd : pool.Nodup := hinv.nodupDisputed.sublist hsub
    have hstd : r.status = TxStatus.disputed := by
      rcases hinv.disputedStatus tx htxd with ⟨r0, hr0, hst0⟩
      rw [hr] at hr0
      injection hr0 with he
      rw [he]
      exact hst0
    have htxnp : tx ∉ s.posted_txs := by
      intro hmem'
      rcases hinv.postedStatus tx hmem' with ⟨r1, hr1, hst1⟩
      rw [hr] at hr1
      injection hr1 with he
      rw [← he] at hst1
      rw [hstd] at hst1
      exact TxStatus.noConfusion hst1
    have hrecmem : (tx, r) ∈ s.deposit_records := mem_of_lookup_eq_some hr
    simp only [FeedBuilder.resolve, hct] at h
    rw [hr] at h
    injection h with h1 h23
    injection h23 with h2 h3
    injection h1 with h1
    subst h1
    subst h2
    refine NextSound.mk ?_ ?_ ?_ ?_ ?_ ?_ ?_ ?_ ?_ ?_ ?_ ?_
    · refine BuilderInv.mk ?_ ?_ ?_ ?_ ?_ ?_ ?_ ?_ ?_ ?_ ?_ ?_ ?_ ?_
      · show ((s.accounts.map (updEntry r.client fun acc0 =>
            { acc0 with held := qSub acc0.held r.amount,
                        available := qAdd acc0.available r.amount })).map Prod.fst).Nodup
        rw [keys_map_updEntry]
        exact hinv.nodupAcc
      · show ((s.deposit_records.map (updEntry tx fun x =>
            { x with status := TxStatus.resolved })).map Prod.fst).Nodup
        rw [keys_map_updEntry]
        exact hinv.nodupRec
      · exact hinv.nodupPosted
      · show (pool.erase tx).Nodup
        exact hpnd.erase tx
      · intro t ht
        replace ht : t ∈ s.posted_txs := ht
        rcases hinv.postedStatus t ht with ⟨r1, hr1, hst1⟩
        have htne : t ≠ tx := fun he => htxnp (he ▸ ht)
        refine ⟨r1, ?_, hst1⟩
        show (s.deposit_records.map (updEntry tx fun x =>
            { x with status := TxStatus.resolved })).lookup t = some r1
        rw [lookup_map_updEntry, if_neg htne, hr1]
      · intro t ht
        replace ht : t ∈ pool.erase tx := ht
        rcases (List.Nodup.mem_erase_iff hpnd).mp ht with ⟨htne, htpool⟩
        rcases hinv.disputedStatus t (hsub.subset htpool) with ⟨r1, hr1, hst1⟩
        refine ⟨r1, ?_, hst1⟩
        show (s.deposit_records.map (updEntry tx fun x =>
            { x with status := TxStatus.resolved })).lookup t = some r1
        rw [lookup_map_updEntry, if_neg htne, hr1]
      · intro p hp
        replace hp : p ∈ s.deposit_records.map (updEntry tx fun x =>
            { x with status := TxStatus.resolved }) := hp
        rcases List.mem_map.mp hp with ⟨q, hq, rfl⟩
        have hcl : (updEntry tx (fun x => { x with status := TxStatus.resolved }) q).2.client =
            q.2.client := by
          unfold updEntry
          by_cases hc : q.1 = tx <;> simp [hc]
        rw [hcl]
        rcases hinv.recClient q hq with ⟨b, hb⟩
        show ∃ a1, (s.accounts.map (updEntry r.client fun acc0 =>
            { acc0 with held := qSub acc0.held r.amount,
                        available := qAdd acc0.available r.amount })).lookup q.2.client = some a1
        rw [lookup_map_updEntry]
        by_cases hc : q.2.client = r.client
        · rw [if_pos hc, hb]
          exact ⟨_, rfl⟩
        · rw [if_neg hc, hb]
          exact ⟨b, rfl⟩
      · intro p hp
        replace hp : p ∈ s.deposit_records.map (updEntry tx fun x =>
            { x with status := TxStatus.resolved }) := hp
        rcases List.mem_map.mp hp with ⟨q, hq, rfl⟩
        show (updEntry tx (fun x => { x with status := TxStatus.resolved }) q).1 < s.tx_counter
        rw [updEntry_fst]
        exact hinv.recFresh q hq
      · intro p hp
        replace hp : p ∈ s.deposit_records.map (updEntry tx fun x =>
            { x with status := TxStatus.resolved }) := hp
        rcases List.mem_map.mp hp with ⟨q, hq, rfl⟩
        have ham : (updEntry tx (fun x => { x with status := TxStatus.resolved }) q).2.amount =
            q.2.amount := by
          unfold updEntry
          by_cases hc : q.1 = tx <;> simp [hc]
        rw [ham]
        exact hinv.amountsNonneg q hq
      · intro p hp
        replace hp : p ∈ s.deposit_records.map (updEntry tx fun x =>
            { x with status := TxStatus.resolved }) := hp
        rcases List.mem_map.mp hp with ⟨q, hq, rfl⟩
        have ham : (updEntry tx (fun x => { x with status := TxStatus.resolved }) q).2.amount =
            q.2.amount := by
          unfold updEntry
          by_cases hc : q.1 = tx <;> simp [hc]
        rw [ham]
        exact hinv.amountsGrid q hq
      · intro p hp
        replace hp : p ∈ s.accounts.map (updEntry r.client fun acc0 =>
            { acc0 with held := qSub acc0.held r.amount,
                        available := qAdd acc0.available r.amount }) := hp
        rcases List.mem_map.mp hp with ⟨q, hq, rfl⟩
        unfold updEntry
        by_cases hc : q.1 = r.client
        · rw [if_pos hc]
          show ∃ k : ℤ, qAdd q.2.available r.amount = (k : ℚ) * BPS
          rw [qAdd_eq]
          exact grid_add (hinv.availGrid q hq) (hinv.amountsGrid (tx, r) hrecmem)
        · rw [if_neg hc]
          exact hinv.availGrid q hq
      · intro c a' ha'
        replace ha' : (s.accounts.map (updEntry r.client fun acc0 =>
            { acc0 with held := qSub acc0.held r.amount,
                        available := qAdd acc0.available r.amount })).lookup c = some a' := ha'
        show a'.held = held_sum (s.deposit_records.map (updEntry tx fun x =>
            { x with status := TxStatus.resolved })) c
        rw [held_sum_set_status s.deposit_records tx TxStatus.resolved c hinv.nodupRec hr]
        have hite2 : (if TxStatus.resolved = TxStatus.disputed ∧ r.client = c
            then r.amount else 0) = 0 := by
          rw [if_neg]
          intro hcon
          exact TxStatus.noConfusion hcon.1
        rw [hite2, add_zero]
        rw [lookup_map_updEntry] at ha'
        by_cases hc : c = r.client
        · rw [if_pos hc] at ha'
          rw [hc] at ha' ⊢
          rw [hacc] at ha'
          injection ha' with ha'
          rw [← ha']
          rw [if_pos ⟨hstd, rfl⟩]
          have := hinv.heldEq r.client acc hacc
          simp only []
          rw [this, qSub_eq]
        · rw [if_neg hc] at ha'
          rw [if_neg (fun hcon => hc hcon.2.symm), sub_zero]
          exact hinv.heldEq c a' ha'
      · exact hinv.minPos
      · exact hinv.maxGtMin
    · show (s.accounts.map (updEntry r.client fun acc0 =>
          { acc0 with held := qSub acc0.held r.amount,
                      available := qAdd acc0.available r.amount })).map Prod.fst =
        s.accounts.map Prod.fst
      exact keys_map_updEntry _ _ _
    · intro c b b' hb hb'
      replace hb' : (s.accounts.map (updEntry r.client fun acc0 =>
          { acc0 with held := qSub acc0.held r.amount,
                      available := qAdd acc0.available r.amount })).lookup c = some b' := hb'
      rw [lookup_map_updEntry] at hb'
      by_cases hc : c = r.client
      · rw [if_pos hc, hb] at hb'
        injection hb' with hb'
        rw [← hb']
        exact fun hh => hh
      · rw [if_neg hc, hb] at hb'
        injection hb' with hb'
        rw [← hb']
        exact fun hh => hh
    · exact ⟨acc, hacc, hlk⟩
    · intro hk; exact RowKind.noConfusion hk
    · rintro (hk | hk) <;> exact RowKind.noConfusion hk
    · intro _
      exact ⟨rfl, r, hr, rfl⟩
    · intro hk; exact RowKind.noConfusion hk
    · intro t r0 hr0
      refine ⟨(updEntry tx (fun x => { x with status := TxStatus.resolved }) (t, r0)).2, ?_, ?_, ?_⟩
      · show (s.deposit_records.map (updEntry tx fun x =>
            { x with status := TxStatus.resolved })).lookup t = _
        rw [lookup_map_updEntry]
        unfold updEntry
        by_cases hc : t = tx
        · rw [if_pos hc, hr0]
          simp [hc]
        · rw [if_neg hc, hr0]
          simp [hc]
      · unfold updEntry
        by_cases hc : t = tx <;> simp [hc]
      · unfold updEntry
        by_cases hc : t = tx <;> simp [hc]
    · intro t r' hr'
      replace hr' : (s.deposit_records.map (updEntry tx fun x =>
          { x with status := TxStatus.resolved })).lookup t = some r' := hr'
      rw [lookup_map_updEntry] at hr'
      by_cases hc : t = tx
      · rw [if_pos hc] at hr'
        rw [hc] at hr' ⊢
        rw [hr] at hr'
        injection hr' with hr'
        exact Or.inl ⟨r, hr, by rw [← hr'], by rw [← hr']⟩
      · rw [if_neg hc] at hr'
        exact Or.inl ⟨r', hr', rfl, rfl⟩
    · intro hk; exact RowKind.noConfusion hk
    · intro hk; exact RowKind.noConfusion hk

/-! ### Operation soundness: chargeback -/

theorem chargeback_none {s : FeedBuilder} {g : ℕ → ℕ} {i : ℕ} {s' : FeedBuilder} {i' : ℕ}
    (h : s.chargeback g i = (none, s', i')) : PoolShrink s s' := by
  rcases hct : s.choose_tx g s.disputed_txs i with ⟨otx, pool, i0⟩
  have hsub : pool.Sublist s.disputed_txs := by
    have := choose_tx_shrink s g s.disputed_txs i
    rw [hct] at this
    exact this
  cases otx with
  | none =>
    simp only [FeedBuilder.chargeback, hct] at h
    injection h with h1 h23
    injection h23 with h2 h3
    subst h2
    exact ⟨rfl, rfl, rfl, rfl, rfl, List.Sublist.refl _, hsub⟩
  | some tx =>
    simp only [FeedBuilder.chargeback, hct] at h
    cases hr : List.lookup tx s.deposit_records with
    | none =>
      rw [hr] at h
      injection h with h1 h23
      injection h23 with h2 h3
      subst h2
      exact ⟨rfl, rfl, rfl, rfl, rfl, List.Sublist.refl _,
        (List.erase_sublist _ _).trans hsub⟩
    | some r =>
      rw [hr] at h
      injection h with h1 h23
      exact Option.noConfusion h1

theorem chargeback_sound {s : FeedBuilder} {g : ℕ → ℕ} {i : ℕ} {row : Row} {s' : FeedBuilder}
    {i' : ℕ} (hinv : BuilderInv s) (h : s.chargeback g i = (some row, s', i')) :
    NextSound s row s' := by
  rcases hct : s.choose_tx g s.disputed_txs i with ⟨otx, pool, i0⟩
  cases otx with
  | none =>
    simp only [FeedBuilder.chargeback, hct] at h
    injection h with h1 _
    exact Option.noConfusion h1
  | some tx =>
    rcases choose_tx_some hct with ⟨hmem, hsub, hel⟩
    rcases tx_for_unlocked_spec hel with ⟨r, hr, acc, hacc, hlk⟩
    have htxd : tx ∈ s.disputed_txs := hsub.subset hmem
    have hpnd : pool.Nodup := hinv.nodupDisputed.sublist hsub
    have hstd : r.status = TxStatus.disputed := by
      rcases hinv.disputedStatus tx htxd with ⟨r0, hr0, hst0⟩
      rw [hr] at hr0
      injection hr0 with he
      rw [he]
      exact hst0
    have htxnp : tx ∉ s.posted_txs := by
      intro hmem'
      rcases hinv.postedStatus tx hmem' with ⟨r1, hr1, hst1⟩
      rw [hr] at hr1
      injection hr1 with he
      rw [← he] at hst1
      rw [hstd] at hst1
      exact TxStatus.noConfusion hst1
    have hrecmem : (tx, r) ∈ s.deposit_records := mem_of_lookup_eq_some hr
    simp only [FeedBuilder.chargeback, hct] at h
    rw [hr] at h
    injection h with h1 h23
    injection h23 with h2 h3
    injection h1 with h1
    subst h1
    subst h2
    refine NextSound.mk ?_ ?_ ?_ ?_ ?_ ?_ ?_ ?_ ?_ ?_ ?_ ?_
    · refine BuilderInv.mk ?_ ?_ ?_ ?_ ?_ ?_ ?_ ?_ ?_ ?_ ?_ ?_ ?_ ?_
      · show ((s.accounts.map (updEntry r.client fun acc0 =>
            { acc0 with held := qSub acc0.held r.amount, locked := true })).map Prod.fst).Nodup
        rw [keys_map_updEntry]
        exact hinv.nodupAcc
      · show ((s.deposit_records.map (updEntry tx fun x =>
            { x with status := TxStatus.chargeback })).map Prod.fst).Nodup
        rw [keys_map_updEntry]
        exact hinv.nodupRec
      · exact hinv.nodupPosted
      · show (pool.erase tx).Nodup
        exact hpnd.erase tx
      · intro t ht
        replace ht : t ∈ s.posted_txs := ht
        rcases hinv.postedStatus t ht with ⟨r1, hr1, hst1⟩
        have htne : t ≠ tx := fun he => htxnp (he ▸ ht)
        refine ⟨r1, ?_, hst1⟩
        show (s.deposit_records.map (updEntry tx fun x =>
            { x with status := TxStatus.chargeback })).lookup t = some r1
        rw [lookup_map_updEntry, if_neg htne, hr1]
      · intro t ht
        replace ht : t ∈ pool.erase tx := ht
        rcases (List.Nodup.mem_erase_iff hpnd).mp ht with ⟨htne, htpool⟩
        rcases hinv.disputedStatus t (hsub.subset htpool) with ⟨r1, hr1, hst1⟩
        refine ⟨r1, ?_, hst1⟩
        show (s.deposit_records.map (updEntry tx fun x =>
            { x with status := TxStatus.chargeback })).lookup t = some r1
        rw [lookup_map_updEntry, if_neg htne, hr1]
      · intro p hp
        replace hp : p ∈ s.deposit_records.map (updEntry tx fun x =>
            { x with status := TxStatus.chargeback }) := hp
        rcases List.mem_map.mp hp with ⟨q, hq, rfl⟩
        have hcl : (updEntry tx (fun x => { x with status := TxStatus.chargeback }) q).2.client =
            q.2.client := by
          unfold updEntry
          by_cases hc : q.1 = tx <;> simp [hc]
        rw [hcl]
        rcases hinv.recClient q hq with ⟨b, hb⟩
        show ∃ a1, (s.accounts.map (updEntry r.client fun acc0 =>
            { acc0 with held := qSub acc0.held r.amount, locked := true })).lookup q.2.client =
          some a1
        rw [lookup_map_updEntry]
        by_cases hc : q.2.client = r.client
        · rw [if_pos hc, hb]
          exact ⟨_, rfl⟩
        · rw [if_neg hc, hb]
          exact ⟨b, rfl⟩
      · intro p hp
        replace hp : p ∈ s.deposit_records.map (updEntry tx fun x =>
            { x with status := TxStatus.chargeback }) := hp
        rcases List.mem_map.mp hp with ⟨q, hq, rfl⟩
        show (updEntry tx (fun x => { x with status := TxStatus.chargeback }) q).1 < s.tx_counter
        rw [updEntry_fst]
        exact hinv.recFresh q hq
      · intro p hp
        replace hp : p ∈ s.deposit_records.map (updEntry tx fun x =>
            { x with status := TxStatus.chargeback }) := hp
        rcases List.mem_map.mp hp with ⟨q, hq, rfl⟩
        have ham : (updEntry tx (fun x => { x with status := TxStatus.chargeback }) q).2.amount =
            q.2.amount := by
          unfold updEntry
          by_cases hc : q.1 = tx <;> simp [hc]
        rw [ham]
        exact hinv.amountsNonneg q hq
      · intro p hp
        replace hp : p ∈ s.deposit_records.map (updEntry tx fun x =>
            { x with status := TxStatus.chargeback }) := hp
        rcases List.mem_map.mp hp with ⟨q, hq, rfl⟩
        have ham : (updEntry tx (fun x => { x with status := TxStatus.chargeback }) q).2.amount =
            q.2.amount := by
          unfold updEntry
          by_cases hc : q.1 = tx <;> simp [hc]
        rw [ham]
        exact hinv.amountsGrid q hq
      · intro p hp
        replace hp : p ∈ s.accounts.map (updEntry r.client fun acc0 =>
            { acc0 with held := qSub acc0.held r.amount, locked := true }) := hp
        rcases List.mem_map.mp hp with ⟨q, hq, rfl⟩
        unfold updEntry
        by_cases hc : q.1 = r.client
        · rw [if_pos hc]
          exact hinv.availGrid q hq
        · rw [if_neg hc]
          exact hinv.availGrid q hq
      · intro c a' ha'
        replace ha' : (s.accounts.map (updEntry r.client fun acc0 =>
            { acc0 with held := qSub acc0.held r.amount, locked := true })).lookup c = some a' := ha'
        show a'.held = held_sum (s.deposit_records.map (updEntry tx fun x =>
            { x with status := TxStatus.chargeback })) c
        rw [held_sum_set_status s.deposit_records tx TxStatus.chargeback c hinv.nodupRec hr]
        have hite2 : (if TxStatus.chargeback = TxStatus.disputed ∧ r.client = c
            then r.amount else 0) = 0 := by
          rw [if_neg]
          intro hcon
          exact TxStatus.noConfusion hcon.1
        rw [hite2, add_zero]
        rw [lookup_map_updEntry] at ha'
        by_cases hc : c = r.client
        · rw [if_pos hc] at ha'
          rw [hc] at ha' ⊢
          rw [hacc] at ha'
          injection ha' with ha'
          rw [← ha']
          rw [if_pos ⟨hstd, rfl⟩]
          have := hinv.heldEq r.client acc hacc
          simp only []
          rw [this, qSub_eq]
        · rw [if_neg hc] at ha'
          rw [if_neg (fun hcon => hc hcon.2.symm), sub_zero]
          exact hinv.heldEq c a' ha'
      · exact hinv.minPos
      · exact hinv.maxGtMin
    · show (s.accounts.map (updEntry r.client fun acc0 =>
          { acc0 with held := qSub acc0.held r.amount, locked := true })).map Prod.fst =
        s.accounts.map Prod.fst
      exact keys_map_updEntry _ _ _
    · intro c b b' hb hb'
      replace hb' : (s.accounts.map (updEntry r.client fun acc0 =>
          { acc0 with held := qSub acc0.held r.amount, locked := true })).lookup c = some b' := hb'
      rw [lookup_map_updEntry] at hb'
      by_cases hc : c = r.client
      · rw [if_pos hc, hb] at hb'
        injection hb' with hb'
        rw [← hb']
        intro _
        rfl
      · rw [if_neg hc, hb] at hb'
        injection hb' with hb'
        rw [← hb']
        exact fun hh => hh
    · exact ⟨acc, hacc, hlk⟩
    · intro _
      refine ⟨{ acc with held := qSub acc.held r.amount, locked := true }, ?_, rfl⟩
      show (s.accounts.map (updEntry r.client fun acc0 =>
          { acc0 with held := qSub acc0.held r.amount, locked := true })).lookup r.client = _
      rw [lookup_map_updEntry, if_pos rfl, hacc]
      rfl
    · rintro (hk | hk) <;> exact RowKind.noConfusion hk
    · intro _
      exact ⟨rfl, r, hr, rfl⟩
    · intro hk; exact RowKind.noConfusion hk
    · intro t r0 hr0
      refine ⟨(updEntry tx (fun x => { x with status := TxStatus.chargeback }) (t, r0)).2,
        ?_, ?_, ?_⟩
      · show (s.deposit_records.map (updEntry tx fun x =>
            { x with status := TxStatus.chargeback })).lookup t = _
        rw [lookup_map_updEntry]
        unfold updEntry
        by_cases hc : t = tx
        · rw [if_pos hc, hr0]
          simp [hc]
        · rw [if_neg hc, hr0]
          simp [hc]
      · unfold updEntry
        by_cases hc : t = tx <;> simp [hc]
      · unfold updEntry
        by_cases hc : t = tx <;> simp [hc]
    · intro t r' hr'
      replace hr' : (s.deposit_records.map (updEntry tx fun x =>
          { x with status := TxStatus.chargeback })).lookup t = some r' := hr'
      rw [lookup_map_updEntry] at hr'
      by_cases hc : t = tx
      · rw [if_pos hc] at hr'
        rw [hc] at hr' ⊢
        rw [hr] at hr'
        injection hr' with hr'
        exact Or.inl ⟨r, hr, by rw [← hr'], by rw [← hr']⟩
      · rw [if_neg hc] at hr'
        exact Or.inl ⟨r', hr', rfl, rfl⟩
    · intro hk; exact RowKind.noConfusion hk
    · intro hk; exact RowKind.noConfusion hk

/-! ### next_row soundness -/

theorem next_row_sound (g : ℕ → ℕ) :
    ∀ (fuel : ℕ) (s : FeedBuilder) (i : ℕ) {row : Row} {s' : FeedBuilder} {i' : ℕ},
      BuilderInv s → next_row g fuel s i = .ok (row, s', i') → NextSound s row s' := by
  intro fuel
  induction fuel with
  | zero =>
    intro s i row s' i' _ h
    cases h
  | succ fuel ih =>
    intro s i row s' i' hinv h
    simp only [next_row] at h
    cases hcands : action_order.filter (fun p => decide (p.1 ∈ s.valid_actions)) with
    | nil =>
      simp only [hcands] at h
      cases hcc : s.choose_client false (g i) with
      | none => simp [hcc] at h
      | some cid =>
        simp only [hcc] at h
        have hmem := choose_client_mem hcc
        rw [if_neg (by simp : ¬(false = true))] at hmem
        cases hrd : s.random_deposit cid (g (i + 1)) with
        | error e => simp [hrd] at h
        | ok pr =>
          rcases pr with ⟨r0, s0⟩
          simp only [hrd] at h
          injection h with h1
          injection h1 with hrow h23
          injection h23 with hs hi
          subst hrow
          subst hs
          exact random_deposit_sound hinv hmem hrd
    | cons c cs =>
      simp only [hcands] at h
      cases hname : ((c :: cs).getD (g i % (c :: cs).length) (RowKind.deposit, 0)).1 with
      | deposit =>
        simp only [hname] at h
        cases hcc : s.choose_client false (g (i + 1)) with
        | none =>
          simp only [hcc] at h
          exact ih s (i + 2) hinv h
        | some cid =>
          simp only [hcc] at h
          have hmem := choose_client_mem hcc
          rw [if_neg (by simp : ¬(false = true))] at hmem
          cases hrd : s.random_deposit cid (g (i + 2)) with
          | error e => simp [hrd] at h
          | ok pr =>
            rcases pr with ⟨r0, s0⟩
            simp only [hrd] at h
            injection h with h1
            injection h1 with hrow h23
            injection h23 with hs hi
            subst hrow
            subst hs
            exact random_deposit_sound hinv hmem hrd
      | withdrawal =>
        simp only [hname] at h
        cases hcc : s.choose_client true (g (i + 1)) with
        | none =>
          simp only [hcc] at h
          exact ih s (i + 2) hinv h
        | some cid =>
          simp only [hcc] at h
          have hmem := choose_client_mem hcc
          rw [if_pos rfl] at hmem
          cases hrd : s.random_withdrawal cid (g (i + 2)) with
          | error e => simp [hrd] at h
          | ok pr =>
            rcases pr with ⟨r0, s0⟩
            simp only [hrd] at h
            injection h with h1
            injection h1 with hrow h23
            injection h23 with hs hi
            subst hrow
            subst hs
            exact random_withdrawal_sound hinv hmem hrd
      | dispute =>
        simp only [hname] at h
        rcases hd : s.dispute g (i + 1) with ⟨or0, s0, i0⟩
        cases or0 with
        | none =>
          simp only [hd] at h
          have hps := dispute_none hd
          exact nextSound_poolShrink hps (ih s0 i0 (builderInv_poolShrink hinv hps) h)
        | some r0 =>
          simp only [hd] at h
          injection h with h1
          injection h1 with hrow h23
          injection h23 with hs hi
          subst hrow
          subst hs
          exact dispute_sound hinv hd
      | resolve =>
        simp only [hname] at h
        rcases hd : s.resolve g (i + 1) with ⟨or0, s0, i0⟩
        cases or0 with
        | none =>
          simp only [hd] at h
          have hps := resolve_none hd
          exact nextSound_poolShrink hps (ih s0 i0 (builderInv_poolShrink hinv hps) h)
        | some r0 =>
          simp only [hd] at h
          injection h with h1
          injection h1 with hrow h23
          injection h23 with hs hi
          subst hrow
          subst hs
          exact resolve_sound hinv hd
      | chargeback =>
        simp only [hname] at h
        by_cases hdamp : 35 ≤ g (i + 1) % 100
        · rw [if_pos hdamp] at h
          exact ih s (i + 2) hinv h
        · rw [if_neg hdamp] at h
          rcases hd : s.chargeback g (i + 2) with ⟨or0, s0, i0⟩
          cases or0 with
          | none =>
            simp only [hd] at h
            have hps := chargeback_none hd
            exact nextSound_poolShrink hps (ih s0 i0 (builderInv_poolShrink hinv hps) h)
          | some r0 =>
            simp only [hd] at h
            injection h with h1
            injection h1 with hrow h23
            injection h23 with hs hi
            subst hrow
            subst hs
            exact chargeback_sound hinv hd

/-! ### Trace soundness -/

theorem run_rows_sound (g : ℕ → ℕ) (fuel : ℕ) :
    ∀ (k : ℕ) (s : FeedBuilder) (i : ℕ) {tr : List (FeedBuilder × Row × FeedBuilder)},
      BuilderInv s → run_rows g fuel k s i = .ok tr → TraceSound s tr := by
  intro k
  induction k with
  | zero =>
    intro s i tr _ h
    simp only [run_rows] at h
    injection h with h1
    rw [← h1]
    exact trivial
  | succ k ih =>
    intro s i tr hinv h
    simp only [run_rows] at h
    cases hnr : next_row g fuel s i with
    | error e => simp [hnr] at h
    | ok pr =>
      rcases pr with ⟨r, s', i'⟩
      simp only [hnr] at h
      cases hrr : run_rows g fuel k s' i' with
      | error e => simp [hrr] at h
      | ok tr0 =>
        simp only [hrr] at h
        injection h with h1
        rw [← h1]
        have hns := next_row_sound g fuel s i hinv hnr
        exact ⟨rfl, hinv, hns, ih s' i' hns.inv' hrr⟩

theorem run_rows_length (g : ℕ → ℕ) (fuel : ℕ) :
    ∀ (k : ℕ) (s : FeedBuilder) (i : ℕ) {tr : List (FeedBuilder × Row × FeedBuilder)},
      run_rows g fuel k s i = .ok tr → tr.length = k := by
  intro k
  induction k with
  | zero =>
    intro s i tr h
    simp only [run_rows] at h
    injection h with h1
    rw [← h1]
    rfl
  | succ k ih =>
    intro s i tr h
    simp only [run_rows] at h
    cases hnr : next_row g fuel s i with
    | error e => simp [hnr] at h
    | ok pr =>
      rcases pr with ⟨r, s', i'⟩
      simp only [hnr] at h
      cases hrr : run_rows g fuel k s' i' with
      | error e => simp [hrr] at h
      | ok tr0 =>
        simp only [hrr] at h
        injection h with h1
        rw [← h1]
        simp [ih s' i' hrr]

theorem traceSound_mem {s : FeedBuilder} {tr : List (FeedBuilder × Row × FeedBuilder)}
    (hts : TraceSound s tr) :
    ∀ t ∈ tr, BuilderInv t.1 ∧ NextSound t.1 t.2.1 t.2.2 := by
  induction tr generalizing s with
  | nil => intro t ht; cases ht
  | cons u rest ih =>
    rcases u with ⟨a, r, b⟩
    rcases hts with ⟨ha, hinv, hns, hrest⟩
    intro t ht
    rcases List.mem_cons.mp ht with rfl | ht
    · exact ⟨ha ▸ hinv, ha ▸ hns⟩
    · exact ih hrest t ht

/-! ### Initialization -/

theorem set_getD_self : ∀ (l : List ℕ) (m : ℕ), l.set m (l.getD m 0) = l
  | [], _ => by simp
  | y :: t, 0 => by simp
  | y :: t, m + 1 => by
    show y :: t.set m (t.getD m 0) = y :: t
    rw [set_getD_self t m]

theorem getD_cons_set_perm : ∀ (l : List ℕ) (m : ℕ), m < l.length → ∀ x : ℕ,
    (l.getD m 0 :: l.set m x).Perm (x :: l)
  | [], m, hm, _ => absurd hm (by simp)
  | y :: t, 0, _, x => List.Perm.swap x y t
  | y :: t, m + 1, hm, x => by
    have hm' : m < t.length := by simpa using hm
    show (t.getD m 0 :: y :: t.set m x).Perm (x :: y :: t)
    exact ((List.Perm.swap y (t.getD m 0) (t.set m x)).trans
      ((getD_cons_set_perm t m hm' x).cons y)).trans (List.Perm.swap x y t)

theorem list_swap_length (l : List ℕ) (i j : ℕ) : (list_swap l i j).length = l.length := by
  simp [list_swap]

theorem list_swap_perm : ∀ (l : List ℕ) (i j : ℕ), i < l.length → j < l.length →
    (list_swap l i j).Perm l := by
  intro l
  induction l with
  | nil => intro i j hi _; simp at hi
  | cons y t ih =>
    intro i j hi hj
    cases i with
    | zero =>
      cases j with
      | zero =>
        unfold list_swap
        rw [List.set_set, set_getD_self]
      | succ m =>
        have hm : m < t.length := by simpa using hj
        show (t.getD m 0 :: t.set m y).Perm (y :: t)
        exact getD_cons_set_perm t m hm y
    | succ m =>
      cases j with
      | zero =>
        have hm : m < t.length := by simpa using hi
        show (t.getD m 0 :: t.set m y).Perm (y :: t)
        exact getD_cons_set_perm t m hm y
      | succ k =>
        have hm : m < t.length := by simpa using hi
        have hk : k < t.length := by simpa using hj
        show (y :: list_swap t m k).Perm (y :: t)
        exact (ih m k hm hk).cons y

theorem shuffle_aux_perm (g : ℕ → ℕ) (base : ℕ) :
    ∀ (k : ℕ) (l : List ℕ), k < l.length → (shuffle_aux g base l k).Perm l := by
  intro k
  induction k with
  | zero => intro l _; exact List.Perm.refl l
  | succ k ih =>
    intro l hk
    show (shuffle_aux g base (list_swap l (k + 1) (g (base + k) % (k + 2))) k).Perm l
    have hj : g (base + k) % (k + 2) < l.length :=
      lt_of_le_of_lt (Nat.le_of_lt_succ (Nat.mod_lt _ (by omega))) hk
    have hswap := list_swap_perm l (k + 1) (g (base + k) % (k + 2)) hk hj
    have hlen : k < (list_swap l (k + 1) (g (base + k) % (k + 2))).length := by
      rw [list_swap_length]
      omega
    exact (ih _ hlen).trans hswap

theorem client_ids_ok {count : ℕ} {entropy : ℕ → ℕ} {ids : List ℕ}
    (h : client_ids count entropy = .ok ids) :
    ids.Perm (List.range' 1 count) ∧ 1 ≤ count ∧ count ≤ 65535 := by
  unfold client_ids at h
  by_cases hc : 1 ≤ count ∧ count ≤ 65535
  · rw [if_pos hc] at h
    injection h with h1
    refine ⟨?_, hc.1, hc.2⟩
    rw [← h1]
    have hlen : count - 1 < (List.range' 1 count).length := by
      rw [List.length_range']
      omega
    exact shuffle_aux_perm entropy 0 (count - 1) (List.range' 1 count) hlen
  · rw [if_neg hc] at h
    cases h

theorem init_builder_ok {cfg : Config} {entropy : ℕ → ℕ} {s0 : FeedBuilder}
    (h : init_builder cfg entropy = .ok s0) :
    BuilderInv s0 ∧ s0.tx_counter = 1 ∧ s0.deposit_records = [] := by
  unfold init_builder at h
  by_cases h1 : cfg.min_amount ≤ 0
  · rw [if_pos h1] at h
    cases h
  · rw [if_neg h1] at h
    by_cases h2 : cfg.max_amount ≤ cfg.min_amount
    · rw [if_pos h2] at h
      cases h
    · rw [if_neg h2] at h
      cases hci : client_ids cfg.clients entropy with
      | error e => rw [hci] at h; cases h
      | ok ids =>
        rw [hci] at h
        injection h with h
        rcases client_ids_ok hci with ⟨hperm, hc1, hc2⟩
        have hnodup : ids.Nodup := hperm.nodup_iff.mpr (List.nodup_range' _ _)
        rw [← h]
        refine ⟨?_, rfl, rfl⟩
        have hkeys : ((ids.map (fun cid => (cid, ({} : ClientAccount)))).map Prod.fst) = ids := by
          rw [List.map_map]
          exact List.map_id ids
        have haccmem : ∀ p ∈ ids.map (fun cid => (cid, ({} : ClientAccount))),
            p.2 = ({} : ClientAccount) := by
          intro p hp
          rcases List.mem_map.mp hp with ⟨c, _, rfl⟩
          rfl
        refine BuilderInv.mk ?_ ?_ ?_ ?_ ?_ ?_ ?_ ?_ ?_ ?_ ?_ ?_ ?_ ?_
        · show ((ids.map (fun cid => (cid, ({} : ClientAccount)))).map Prod.fst).Nodup
          rw [hkeys]
          exact hnodup
        · exact List.nodup_nil
        · exact List.nodup_nil
        · exact List.nodup_nil
        · intro tx htx; cases htx
        · intro tx htx; cases htx
        · intro p hp; cases hp
        · intro p hp; cases hp
        · intro p hp; cases hp
        · intro p hp; cases hp
        · intro p hp
          have := haccmem p hp
          rw [this]
          exact ⟨0, by norm_num⟩
        · intro cid a ha
          have ha2 : a = ({} : ClientAccount) := haccmem _ (mem_of_lookup_eq_some ha)
          rw [ha2]
          rfl
        · exact lt_of_not_le h1
        · exact lt_of_not_le h2

theorem gen_trace_sound {cfg : Config} {e g : ℕ → ℕ} {fuel : ℕ}
    {tr : List (FeedBuilder × Row × FeedBuilder)}
    (h : gen_trace cfg e g fuel = .ok tr) :
    ∃ s0, init_builder cfg e = .ok s0 ∧ BuilderInv s0 ∧ s0.tx_counter = 1 ∧
      s0.deposit_records = [] ∧ TraceSound s0 tr ∧
      tr.length = (max 1 cfg.rows - 1).toNat := by
  unfold gen_trace at h
  cases hib : init_builder cfg e with
  | error e0 => rw [hib] at h; cases h
  | ok s0 =>
    rw [hib] at h
    rcases init_builder_ok hib with ⟨hinv, hctr, hrec⟩
    exact ⟨s0, rfl, hinv, hctr, hrec,
      run_rows_sound g fuel _ s0 0 hinv h, run_rows_length g fuel _ s0 0 h⟩

/-! ### Derived facts used by the claims -/

theorem builderInv_held_nonneg {s : FeedBuilder} (hinv : BuilderInv s) :
    ∀ p ∈ s.accounts, 0 ≤ p.2.held := by
  intro p hp
  have hmem : (p.1, p.2) ∈ s.accounts := by simpa using hp
  have hl := lookup_eq_some_of_mem_nodup hinv.nodupAcc hmem
  rw [hinv.heldEq p.1 p.2 hl]
  exact held_sum_nonneg p.1 hinv.amountsNonneg

theorem builderInv_poolsLockstep {s : FeedBuilder} (hinv : BuilderInv s) : PoolsLockstep s := by
  refine ⟨hinv.postedStatus, hinv.disputedStatus, ?_, ?_⟩
  · rintro tx ⟨hp, hd⟩
    rcases hinv.postedStatus tx hp with ⟨r1, hr1, hs1⟩
    rcases hinv.disputedStatus tx hd with ⟨r2, hr2, hs2⟩
    rw [hr1] at hr2
    injection hr2 with he
    rw [← he] at hs2
    rw [hs1] at hs2
    exact TxStatus.noConfusion hs2
  · intro p hp hst
    have hl := lookup_eq_some_of_mem_nodup hinv.nodupRec (by simpa using hp)
    constructor
    · intro hmem
      rcases hinv.postedStatus _ hmem with ⟨r1, hr1, hs1⟩
      rw [hl] at hr1
      injection hr1 with he
      rw [← he] at hs1
      rcases hst with hst | hst <;> (rw [hst] at hs1; exact TxStatus.noConfusion hs1)
    · intro hmem
      rcases hinv.disputedStatus _ hmem with ⟨r1, hr1, hs1⟩
      rw [hl] at hr1
      injection hr1 with he
      rw [← he] at hs1
      rcases hst with hst | hst <;> (rw [hst] at hs1; exact TxStatus.noConfusion hs1)

theorem locked_no_rows {tr : List (FeedBuilder × Row × FeedBuilder)} :
    ∀ {s : FeedBuilder}, TraceSound s tr → ∀ c : ℕ,
      (∃ a, s.accounts.lookup c = some a ∧ a.locked = true) →
      ∀ t ∈ tr, t.2.1.client ≠ c := by
  induction tr with
  | nil => intro s _ c _ t ht; cases ht
  | cons u rest ih =>
    rcases u with ⟨a0, r0, b0⟩
    intro s hts c hlocked t ht
    rcases hts with ⟨haeq, hinv, hns, hrest⟩
    subst haeq
    rcases hlocked with ⟨a, ha, halk⟩
    rcases List.mem_cons.mp ht with rfl | ht
    · rcases hns.clientOk with ⟨b, hb, hbl⟩
      intro hcc
      rw [hcc] at hb
      rw [ha] at hb
      injection hb with hb
      rw [← hb] at hbl
      rw [halk] at hbl
      exact Bool.noConfusion hbl
    · have hckeys : c ∈ b0.accounts.map Prod.fst := by
        rw [hns.keys]
        exact mem_keys_of_lookup_eq_some ha
      rcases lookup_eq_some_of_mem_keys hckeys with ⟨a', ha'⟩
      have ha'lk := hns.lockMono c a a' ha ha' halk
      exact ih hrest c ⟨a', ha', ha'lk⟩ t ht

theorem chargeback_locks_later {tr : List (FeedBuilder × Row × FeedBuilder)} :
    ∀ {s : FeedBuilder}, TraceSound s tr →
      ∀ (idx : ℕ) (hidx : idx < tr.length), (tr.get ⟨idx, hidx⟩).2.1.kind = .chargeback →
        ∀ t ∈ tr.drop (idx + 1), t.2.1.client ≠ (tr.get ⟨idx, hidx⟩).2.1.client := by
  induction tr with
  | nil => intro s _ idx hidx; simp at hidx
  | cons u rest ih =>
    rcases u with ⟨a0, r0, b0⟩
    intro s hts idx hidx hkind
    rcases hts with ⟨haeq, hinv, hns, hrest⟩
    subst haeq
    cases idx with
    | zero =>
      intro t ht
      rcases hns.cbLocks hkind with ⟨a', ha', halk⟩
      exact locked_no_rows hrest r0.client ⟨a', ha', halk⟩ t ht
    | succ idx =>
      exact ih hrest idx (Nat.lt_of_succ_lt_succ hidx) hkind

theorem tx_for_unlocked_intro {s : FeedBuilder} {tx : ℕ} {r : DepositRecord}
    {acc : ClientAccount} (hr : s.deposit_records.lookup tx = some r)
    (ha : s.accounts.lookup r.client = some acc) (hl : acc.locked = false) :
    s.tx_for_unlocked tx = true := by
  unfold FeedBuilder.tx_for_unlocked
  simp [hr, ha, hl]

theorem has_posted_iff {s : FeedBuilder} :
    s.has_posted_for_unlocked = true ↔
      ∃ tx ∈ s.posted_txs, ∃ r, s.deposit_records.lookup tx = some r ∧
        ∃ acc, s.accounts.lookup r.client = some acc ∧ acc.locked = false := by
  unfold FeedBuilder.has_posted_for_unlocked
  rw [List.any_eq_true]
  constructor
  · rintro ⟨tx, htx, hel⟩
    rcases tx_for_unlocked_spec hel with ⟨r, hr, acc, ha, hl⟩
    exact ⟨tx, htx, r, hr, acc, ha, hl⟩
  · rintro ⟨tx, htx, r, hr, acc, ha, hl⟩
    exact ⟨tx, htx, tx_for_unlocked_intro hr ha hl⟩

theorem has_disputed_iff {s : FeedBuilder} :
    s.has_disputed_for_unlocked = true ↔
      ∃ tx ∈ s.disputed_txs, ∃ r, s.deposit_records.lookup tx = some r ∧
        ∃ acc, s.accounts.lookup r.client = some acc ∧ acc.locked = false := by
  unfold FeedBuilder.has_disputed_for_unlocked
  rw [List.any_eq_true]
  constructor
  · rintro ⟨tx, htx, hel⟩
    rcases tx_for_unlocked_spec hel with ⟨r, hr, acc, ha, hl⟩
    exact ⟨tx, htx, r, hr, acc, ha, hl⟩
  · rintro ⟨tx, htx, r, hr, acc, ha, hl⟩
    exact ⟨tx, htx, tx_for_unlocked_intro hr ha hl⟩

theorem unlocked_nonempty_iff {s : FeedBuilder} :
    (!s.unlocked_clients.isEmpty) = true ↔ ∃ p ∈ s.accounts, p.2.locked = false := by
  constructor
  · intro h
    have hne : s.unlocked_clients ≠ [] := by
      intro hnil
      rw [hnil] at h
      cases h
    rcases List.exists_mem_of_ne_nil _ hne with ⟨cid, hcid⟩
    rcases mem_unlocked_clients.mp hcid with ⟨a, hmem, hl⟩
    exact ⟨(cid, a), hmem, hl⟩
  · rintro ⟨p, hp, hl⟩
    have hm : p.1 ∈ s.unlocked_clients :=
      mem_unlocked_clients.mpr ⟨p.2, by simpa using hp, hl⟩
    cases he : s.unlocked_clients.isEmpty
    · rfl
    · rw [List.isEmpty_iff] at he
      rw [he] at hm
      cases hm

theorem funded_nonempty_iff {s : FeedBuilder} :
    (!s.funded_clients.isEmpty) = true ↔
      ∃ p ∈ s.accounts, p.2.locked = false ∧ s.min_amount ≤ p.2.available := by
  constructor
  · intro h
    have hne : s.funded_clients ≠ [] := by
      intro hnil
      rw [hnil] at h
      cases h
    rcases List.exists_mem_of_ne_nil _ hne with ⟨cid, hcid⟩
    rcases mem_funded_clients.mp hcid with ⟨a, hmem, hl, hav⟩
    exact ⟨(cid, a), hmem, hl, hav⟩
  · rintro ⟨p, hp, hl, hav⟩
    have hm : p.1 ∈ s.funded_clients :=
      mem_funded_clients.mpr ⟨p.2, by simpa using hp, hl, hav⟩
    cases he : s.funded_clients.isEmpty
    · rfl
    · rw [List.isEmpty_iff] at he
      rw [he] at hm
      cases hm

theorem deposit_mem_valid (s : FeedBuilder) :
    RowKind.deposit ∈ s.valid_actions ↔ (!s.unlocked_clients.isEmpty) = true := by
  unfold FeedBuilder.valid_actions
  split_ifs <;> simp_all

theorem withdrawal_mem_valid (s : FeedBuilder) :
    RowKind.withdrawal ∈ s.valid_actions ↔ (!s.funded_clients.isEmpty) = true := by
  unfold FeedBuilder.valid_actions
  split_ifs <;> simp_all

theorem dispute_mem_valid (s : FeedBuilder) :
    RowKind.dispute ∈ s.valid_actions ↔ s.has_posted_for_unlocked = true := by
  unfold FeedBuilder.valid_actions
  split_ifs <;> simp_all

theorem resolve_mem_valid (s : FeedBuilder) :
    RowKind.resolve ∈ s.valid_actions ↔ s.has_disputed_for_unlocked = true := by
  unfold FeedBuilder.valid_actions
  split_ifs <;> simp_all

theorem chargeback_mem_valid (s : FeedBuilder) :
    RowKind.chargeback ∈ s.valid_actions ↔
      2 ≤ s.unlocked_clients.length ∧ s.has_disputed_for_unlocked = true := by
  unfold FeedBuilder.valid_actions
  split_ifs <;> simp_all

/-- The tx ids of the deposit/withdrawal rows of a sound trace are exactly the
consecutive counter values, and every dispute/resolve/chargeback row either
references a record already present at the start of the trace or an earlier
deposit row of the trace with the same tx and client. -/
theorem trace_tx_facts {tr : List (FeedBuilder × Row × FeedBuilder)} :
    ∀ {s : FeedBuilder}, TraceSound s tr →
      ((dwRows (traceRows tr)).map Row.tx =
        List.range' s.tx_counter (dwRows (traceRows tr)).length) ∧
      (∀ (j : ℕ) (hj : j < tr.length), isRefKind (tr.get ⟨j, hj⟩).2.1 →
        (∃ r, s.deposit_records.lookup (tr.get ⟨j, hj⟩).2.1.tx = some r ∧
            r.client = (tr.get ⟨j, hj⟩).2.1.client) ∨
        ∃ i, ∃ (hij : i < j),
          (tr.get ⟨i, lt_trans hij hj⟩).2.1.kind = RowKind.deposit ∧
          (tr.get ⟨i, lt_trans hij hj⟩).2.1.tx = (tr.get ⟨j, hj⟩).2.1.tx ∧
          (tr.get ⟨i, lt_trans hij hj⟩).2.1.client = (tr.get ⟨j, hj⟩).2.1.client) := by
  induction tr with
  | nil =>
    intro s _
    constructor
    · rfl
    · intro j hj
      simp at hj
  | cons u rest ih =>
    rcases u with ⟨a0, r0, b0⟩
    intro s hts
    rcases hts with ⟨haeq, hinv, hns, hrest⟩
    subst haeq
    rcases ih hrest with ⟨ihtx, ihref⟩
    constructor
    · show (dwRows (r0 :: traceRows rest)).map Row.tx =
        List.range' a0.tx_counter (dwRows (r0 :: traceRows rest)).length
      by_cases hdw : r0.kind = RowKind.deposit ∨ r0.kind = RowKind.withdrawal
      · have hfil : dwRows (r0 :: traceRows rest) = r0 :: dwRows (traceRows rest) := by
          unfold dwRows
          rw [List.filter_cons_of_pos (by simpa using hdw)]
        rcases hns.dwTx hdw with ⟨htx0, hctr⟩
        rw [hfil, List.map_cons, List.length_cons, List.range'_succ, htx0, ihtx, hctr]
      · have hfil : dwRows (r0 :: traceRows rest) = dwRows (traceRows rest) := by
          unfold dwRows
          rw [List.filter_cons_of_neg (by simpa using hdw)]
        have hkind : isRefKind r0 := by
          unfold isRefKind
          cases hk : r0.kind <;> simp_all
        rcases hns.refTx hkind with ⟨hctr, -⟩
        rw [hfil, ihtx, hctr]
    · intro j hj href
      cases j with
      | zero =>
        rcases hns.refTx href with ⟨-, r, hr, hc⟩
        exact Or.inl ⟨r, hr, hc⟩
      | succ j =>
        have hj' : j < rest.length := Nat.lt_of_succ_lt_succ (by simpa using hj)
        have href' : isRefKind (rest.get ⟨j, hj'⟩).2.1 := href
        rcases ihref j hj' href' with ⟨r, hrb, hc⟩ | ⟨i, hij, hk1, hk2, hk3⟩
        · rcases hns.recNew _ r hrb with ⟨r1, hr1, hcl, -⟩ | ⟨hkd, htx, hcl, -⟩
          · refine Or.inl ⟨r1, hr1, ?_⟩
            show r1.client = (rest.get ⟨j, hj'⟩).2.1.client
            rw [hcl, hc]
          · refine Or.inr ⟨0, Nat.succ_pos j, hkd, ?_, ?_⟩
            · show r0.tx = (rest.get ⟨j, hj'⟩).2.1.tx
              rw [← htx]
            · show r0.client = (rest.get ⟨j, hj'⟩).2.1.client
              rw [← hcl, hc]
        · exact Or.inr ⟨i + 1, Nat.succ_lt_succ hij, hk1, hk2, hk3⟩

theorem get_mem_drop {α : Type} (l : List α) (j k : ℕ) (hk : k < l.length) (hjk : j < k) :
    l.get ⟨k, hk⟩ ∈ l.drop (j + 1) := by
  have hlen : k - (j + 1) < (l.drop (j + 1)).length := by
    rw [List.length_drop]
    omega
  have hg : (l.drop (j + 1)).get ⟨k - (j + 1), hlen⟩ = l.get ⟨k, hk⟩ := by
    rw [List.get_eq_getElem, List.get_eq_getElem, List.getElem_drop]
    show l.get ⟨j + 1 + (k - (j + 1)), by omega⟩ = l.get ⟨k, hk⟩
    exact congrArg l.get (Fin.ext (show j + 1 + (k - (j + 1)) = k by omega))
  rw [← hg]
  exact List.get_mem _ _ _

/-- Under the builder invariant (`0 < min < max`) a deposit draw can never
fail: `decimal_from_range` succeeds, so `_random_deposit` always returns a
row carrying the fresh counter value. -/
theorem random_deposit_ok {s : FeedBuilder} (cid v : ℕ) (hinv : BuilderInv s) :
    ∃ s', s.random_deposit cid v =
      .ok (⟨.deposit, cid, s.tx_counter,
        some ((randint (quant4 s.min_amount) (quant4 s.max_amount) v : ℚ) * BPS)⟩, s') := by
  unfold FeedBuilder.random_deposit
  rw [decimal_from_range_eq (lt_trans hinv.minPos hinv.maxGtMin) (le_of_lt hinv.maxGtMin) v]
  exact ⟨_, rfl⟩

/-- The invariant of the degenerate one-locked-client state `sLock`. -/
theorem builderInv_sLock : BuilderInv sLock := by
  refine BuilderInv.mk ?_ ?_ ?_ ?_ ?_ ?_ ?_ ?_ ?_ ?_ ?_ ?_ ?_ ?_
  · decide
  · decide
  · decide
  · decide
  · intro tx htx; simp [sLock] at htx
  · intro tx htx; simp [sLock] at htx
  · intro p hp; simp [sLock] at hp
  · intro p hp; simp [sLock] at hp
  · intro p hp; simp [sLock] at hp
  · intro p hp; simp [sLock] at hp
  · intro p hp
    rcases List.mem_singleton.mp hp with rfl
    exact ⟨0, by norm_num⟩
  · intro cid a h
    by_cases hc : cid = 1
    · subst hc
      rw [show sLock.accounts.lookup 1 =
        some { available := 0, held := 0, locked := true } from rfl] at h
      injection h with h
      rw [← h]
      rfl
    · rw [show sLock.accounts = [(1, { available := 0, held := 0, locked := true })] from rfl,
        lookup_cons_ne _ _ hc] at h
      cases h
  · decide
  · decide

/-! ### Claim theorems -/

/-- C2 counterexample: the claim "available ≥ 0 and held ≥ 0 for every
account after every row" is false on the code.  The run `cfgC2`/`gC2`
(deposit 2, withdraw 2, dispute the deposit) is a generated feed after whose
third row client 1 has available = -2: `_dispute` moves the disputed amount
out of `available` without checking that the funds are still there. -/
theorem c2_counterexample :
    (gen_trace cfgC2 (fun _ => 0) gC2 3).toOption.isSome = true ∧
    ∃ t ∈ trC2, ∃ p ∈ t.2.2.accounts, p.2.available < 0 := by
  decide

/-- C2 (amended): replaying a generated feed keeps `held ≥ 0` for every
account after every row; every withdrawal row leaves its client's available
≥ 0; deposit rows never decrease their client's available.  (The original
`available ≥ 0` for all rows is refuted by `c2_counterexample`: a dispute row
can drive available below zero.) -/
theorem c2_amended (cfg : Config) (e g : ℕ → ℕ) (fuel : ℕ)
    (tr : List (FeedBuilder × Row × FeedBuilder))
    (h : gen_trace cfg e g fuel = .ok tr) :
    (∀ t ∈ tr, ∀ p ∈ t.2.2.accounts, 0 ≤ p.2.held) ∧
    (∀ t ∈ tr, t.2.1.kind = RowKind.withdrawal →
      ∃ a, t.2.2.accounts.lookup t.2.1.client = some a ∧ 0 ≤ a.available) ∧
    (∀ t ∈ tr, t.2.1.kind = RowKind.deposit →
      ∃ a a', t.1.accounts.lookup t.2.1.client = some a ∧
        t.2.2.accounts.lookup t.2.1.client = some a' ∧ a.available ≤ a'.available) := by
  rcases gen_trace_sound h with ⟨s0, -, hinv0, -, -, hts, -⟩
  have hmem := traceSound_mem hts
  refine ⟨?_, ?_, ?_⟩
  · intro t ht p hp
    exact builderInv_held_nonneg (hmem t ht).2.inv' p hp
  · intro t ht hk
    exact (hmem t ht).2.wdAvail hk
  · intro t ht hk
    exact (hmem t ht).2.depAvail hk

/-- Witness for `c2_amended` on the concrete run `cfgW3`/`eW3`/`gW3`. -/
theorem c2_amended_witness :
    (∀ t ∈ trW3, ∀ p ∈ t.2.2.accounts, 0 ≤ p.2.held) ∧
    (∀ t ∈ trW3, t.2.1.kind = RowKind.withdrawal →
      ∃ a, t.2.2.accounts.lookup t.2.1.client = some a ∧ 0 ≤ a.available) ∧
    (∀ t ∈ trW3, t.2.1.kind = RowKind.deposit →
      ∃ a a', t.1.accounts.lookup t.2.1.client = some a ∧
        t.2.2.accounts.lookup t.2.1.client = some a' ∧ a.available ≤ a'.available) :=
  c2_amended cfgW3 eW3 gW3 1 trW3 (by decide)

/-- C4: in every generated feed the tx ids of the deposit and withdrawal rows
are exactly 1, 2, 3, ... in emission order (one shared counter starting at 1,
hence unique and strictly increasing), and every dispute/resolve/chargeback
row carries the tx id and client of an earlier deposit row of the feed. -/
theorem c4_tx_assignment (cfg : Config) (e g : ℕ → ℕ) (fuel : ℕ)
    (tr : List (FeedBuilder × Row × FeedBuilder))
    (h : gen_trace cfg e g fuel = .ok tr) :
    ((dwRows (traceRows tr)).map Row.tx =
      List.range' 1 (dwRows (traceRows tr)).length) ∧
    (∀ (j : ℕ) (hj : j < tr.length), isRefKind (tr.get ⟨j, hj⟩).2.1 →
      ∃ i, ∃ (hij : i < j),
        (tr.get ⟨i, lt_trans hij hj⟩).2.1.kind = RowKind.deposit ∧
        (tr.get ⟨i, lt_trans hij hj⟩).2.1.tx = (tr.get ⟨j, hj⟩).2.1.tx ∧
        (tr.get ⟨i, lt_trans hij hj⟩).2.1.client = (tr.get ⟨j, hj⟩).2.1.client) := by
  rcases gen_trace_sound h with ⟨s0, -, -, hctr, hrec, hts, -⟩
  rcases trace_tx_facts hts with ⟨htx, href⟩
  constructor
  · rw [htx, hctr]
  · intro j hj hrk
    rcases href j hj hrk with ⟨r, hr, -⟩ | hfound
    · rw [hrec] at hr
      cases hr
    · exact hfound

/-- Witness for `c4_tx_assignment` on the concrete run `cfgW3`/`eW3`/`gW3`. -/
theorem c4_tx_assignment_witness :
    ((dwRows (traceRows trW3)).map Row.tx =
      List.range' 1 (dwRows (traceRows trW3)).length) ∧
    (∀ (j : ℕ) (hj : j < trW3.length), isRefKind (trW3.get ⟨j, hj⟩).2.1 →
      ∃ i, ∃ (hij : i < j),
        (trW3.get ⟨i, lt_trans hij hj⟩).2.1.kind = RowKind.deposit ∧
        (trW3.get ⟨i, lt_trans hij hj⟩).2.1.tx = (trW3.get ⟨j, hj⟩).2.1.tx ∧
        (trW3.get ⟨i, lt_trans hij hj⟩).2.1.client = (trW3.get ⟨j, hj⟩).2.1.client) :=
  c4_tx_assignment cfgW3 eW3 gW3 1 trW3 (by decide)

/-- C9: at every point of every generated feed the pending pools are in
lockstep with the deposit-record statuses: posted-pool members have status
`posted`, disputed-pool members have status `disputed`, no tx is in both
pools, and a record with status `resolved` or `chargeback` is in neither
pool.  This holds in the state before and after every row. -/
theorem c9_pools_lockstep (cfg : Config) (e g : ℕ → ℕ) (fuel : ℕ)
    (tr : List (FeedBuilder × Row × FeedBuilder))
    (h : gen_trace cfg e g fuel = .ok tr) :
    ∀ t ∈ tr, PoolsLockstep t.1 ∧ PoolsLockstep t.2.2 := by
  rcases gen_trace_sound h with ⟨s0, -, -, -, -, hts, -⟩
  have hmem := traceSound_mem hts
  intro t ht
  exact ⟨builderInv_poolsLockstep (hmem t ht).1,
    builderInv_poolsLockstep (hmem t ht).2.inv'⟩

/-- Witness for `c9_pools_lockstep`: the lockstep property at the first step
of the concrete run `cfgW3`/`eW3`/`gW3`. -/
theorem c9_pools_lockstep_witness :
    PoolsLockstep (trW3.getD 0 (s0W, ⟨RowKind.deposit, 0, 0, none⟩, s0W)).1 ∧
    PoolsLockstep (trW3.getD 0 (s0W, ⟨RowKind.deposit, 0, 0, none⟩, s0W)).2.2 :=
  c9_pools_lockstep cfgW3 eW3 gW3 1 trW3 (by decide) _ (by decide)

/-- C10: a completed run writes the header line plus exactly
`max(1, rows) - 1` record lines — the configured row count includes the
header, and any `rows ≤ 1` (including 0 and negative values) yields a
header-only file. -/
theorem c10_row_count (cfg : Config) (e : ℕ → ℕ) (fuel : ℕ) (ls : List CsvLine)
    (h : main_output cfg e fuel = .ok ls) :
    ls.length = 1 + (max 1 cfg.rows - 1).toNat ∧
    ls.head? = some CsvLine.header ∧
    (cfg.rows ≤ 1 → ls = [CsvLine.header]) := by
  unfold main_output generate at h
  cases hgt : gen_trace cfg e (mk_stream cfg.seed) fuel with
  | error e0 => rw [hgt] at h; cases h
  | ok tr =>
    rw [hgt] at h
    injection h with h
    rcases gen_trace_sound hgt with ⟨s0, -, -, -, -, -, hlen⟩
    refine ⟨?_, ?_, ?_⟩
    · rw [← h]
      simp [hlen]
    · rw [← h]
      rfl
    · intro hrows
      have hz : (max 1 cfg.rows - 1).toNat = 0 := by
        have : max 1 cfg.rows = 1 := by omega
        rw [this]
        rfl
      rw [hz] at hlen
      have : tr = [] := List.eq_nil_of_length_eq_zero hlen
      rw [← h, this]
      rfl

/-- Witness for `c10_row_count` at `--rows 0`: the output is exactly the
header line. -/
theorem c10_row_count_witness :
    [CsvLine.header].length = 1 + (max 1 cfgR0.rows - 1).toNat ∧
    [CsvLine.header].head? = some CsvLine.header ∧
    (cfgR0.rows ≤ 1 → [CsvLine.header] = [CsvLine.header]) :=
  c10_row_count cfgR0 (fun _ => 0) 1 [CsvLine.header] (by decide)

/-- C1 counterexample: the determinism claim is false on the code.  Two runs
with the byte-identical configuration `cfgC1` (the default seed 1337, rows 2,
clients 2, min 0.01, max 5000) both complete, yet produce different output:
`random.shuffle` inside `_client_ids` runs *before* `random.seed(args.seed)`,
so the client column depends on the interpreter's startup RNG state (modelled
by the `entropy` stream), which the configuration does not determine. -/
theorem c1_output_differs_for_equal_configs :
    (main_output cfgC1 (fun _ => 1) 1).toOption.isSome = true ∧
    (main_output cfgC1 (fun _ => 0) 1).toOption.isSome = true ∧
    main_output cfgC1 (fun _ => 1) 1 ≠ main_output cfgC1 (fun _ => 0) 1 := by
  decide

/-- C3: in every generated feed, once a chargeback row names a client, no
later row of the feed names that client for deposit, withdrawal, dispute, or
resolve.  (The chargeback locks the account; every later row's client is
chosen unlocked.) -/
theorem c3_no_rows_after_chargeback (cfg : Config) (e g : ℕ → ℕ) (fuel : ℕ)
    (tr : List (FeedBuilder × Row × FeedBuilder))
    (h : gen_trace cfg e g fuel = .ok tr) :
    ∀ (j : ℕ) (hj : j < tr.length), (tr.get ⟨j, hj⟩).2.1.kind = RowKind.chargeback →
      ∀ (k : ℕ) (hk : k < tr.length), j < k →
        ((tr.get ⟨k, hk⟩).2.1.kind = RowKind.deposit ∨
         (tr.get ⟨k, hk⟩).2.1.kind = RowKind.withdrawal ∨
         (tr.get ⟨k, hk⟩).2.1.kind = RowKind.dispute ∨
         (tr.get ⟨k, hk⟩).2.1.kind = RowKind.resolve) →
        (tr.get ⟨k, hk⟩).2.1.client ≠ (tr.get ⟨j, hj⟩).2.1.client := by
  rcases gen_trace_sound h with ⟨s0, -, -, -, -, hts, -⟩
  intro j hj hkind k hk hjk _
  exact chargeback_locks_later hts j hj hkind _ (get_mem_drop tr j k hk hjk)

/-- Witness for `c3_no_rows_after_chargeback` on the run `cfgW3`/`eW3`/`gW3`:
row 2 is a chargeback on client 1 and row 3 is a deposit for a different
client. -/
theorem c3_no_rows_after_chargeback_witness :
    (trW3.get ⟨2, by decide⟩).2.1.kind = RowKind.chargeback ∧
    (trW3.get ⟨3, by decide⟩).2.1.kind = RowKind.deposit ∧
    (trW3.get ⟨3, by decide⟩).2.1.client ≠ (trW3.get ⟨2, by decide⟩).2.1.client := by
  refine ⟨by decide, by decide, ?_⟩
  exact c3_no_rows_after_chargeback cfgW3 eW3 gW3 1 trW3 (by decide) 2 (by decide)
    (by decide) 3 (by decide) (by omega) (Or.inl (by decide))

/-- C5: the computed list of legal action kinds contains each kind exactly
under the claimed condition: deposit iff an unlocked account exists;
withdrawal iff an unlocked account has available ≥ min_amount; dispute iff a
posted-pool tx belongs to an unlocked account; resolve iff a disputed-pool tx
belongs to an unlocked account; chargeback iff at least two unlocked accounts
exist and a disputed-pool tx belongs to an unlocked account. -/
theorem c5_valid_actions (s : FeedBuilder) :
    (RowKind.deposit ∈ s.valid_actions ↔ ∃ p ∈ s.accounts, p.2.locked = false) ∧
    (RowKind.withdrawal ∈ s.valid_actions ↔
      ∃ p ∈ s.accounts, p.2.locked = false ∧ s.min_amount ≤ p.2.available) ∧
    (RowKind.dispute ∈ s.valid_actions ↔
      ∃ tx ∈ s.posted_txs, ∃ r, s.deposit_records.lookup tx = some r ∧
        ∃ acc, s.accounts.lookup r.client = some acc ∧ acc.locked = false) ∧
    (RowKind.resolve ∈ s.valid_actions ↔
      ∃ tx ∈ s.disputed_txs, ∃ r, s.deposit_records.lookup tx = some r ∧
        ∃ acc, s.accounts.lookup r.client = some acc ∧ acc.locked = false) ∧
    (RowKind.chargeback ∈ s.valid_actions ↔
      2 ≤ s.unlocked_clients.length ∧
        ∃ tx ∈ s.disputed_txs, ∃ r, s.deposit_records.lookup tx = some r ∧
          ∃ acc, s.accounts.lookup r.client = some acc ∧ acc.locked = false) :=
  ⟨(deposit_mem_valid s).trans unlocked_nonempty_iff,
   (withdrawal_mem_valid s).trans funded_nonempty_iff,
   (dispute_mem_valid s).trans has_posted_iff,
   (resolve_mem_valid s).trans has_disputed_iff,
   (chargeback_mem_valid s).trans (and_congr_right fun _ => has_disputed_iff)⟩

/-- C6 counterexample: the claim "emits an amount in [minAmount, cap]" is
false on the code.  On the reachable state `sC6` (min 0.00004, max 1, client
1 holding 0.0001) the withdrawal neither fails (cap = 0.0001 ≥ min) nor
stays above the minimum: the half-even-quantized low bound is
`quant4(0.00004) = 0`, so the draw 0 emits amount 0 < min_amount. -/
theorem c6_counterexample :
    sC6.random_withdrawal 1 0 =
      .ok (⟨RowKind.withdrawal, 1, 2, some 0⟩, sC6after) ∧
    ¬ min (sC6.get_account 1).available sC6.max_amount < sC6.min_amount ∧
    (0 : ℚ) < sC6.min_amount := by
  decide

/-- C6 (amended): letting cap = min(available, max_amount), a withdrawal for
a client fails fatally iff cap < min_amount; otherwise it emits an amount
`n·0.0001` with `quant4(min_amount) ≤ n ≤ quant4(cap)` and debits exactly
that amount (the emitted amount can drop below min_amount when min_amount is
off the 0.0001 grid, see `c6_counterexample`); a client with available ≥
min_amount (the policy's selection criterion) never hits the fatal branch. -/
theorem c6_amended (s : FeedBuilder) (cid v : ℕ) (hinv : BuilderInv s)
    (a : ClientAccount) (ha : s.accounts.lookup cid = some a) :
    ((∃ e, s.random_withdrawal cid v = .error e) ↔
        min a.available s.max_amount < s.min_amount) ∧
    (¬ min a.available s.max_amount < s.min_amount →
      ∃ n : ℤ, quant4 s.min_amount ≤ n ∧ n ≤ quant4 (min a.available s.max_amount) ∧
        ∃ s', s.random_withdrawal cid v =
            .ok (⟨RowKind.withdrawal, cid, s.tx_counter, some ((n : ℚ) * BPS)⟩, s') ∧
          s'.tx_counter = s.tx_counter + 1 ∧
          ∃ a', s'.accounts.lookup cid = some a' ∧
            a'.available = a.available - (n : ℚ) * BPS) ∧
    (s.min_amount ≤ a.available → ¬ min a.available s.max_amount < s.min_amount) := by
  by_cases hlt : min a.available s.max_amount < s.min_amount
  · refine ⟨⟨fun _ => hlt, fun _ => ⟨msgInsufficient, ?_⟩⟩, fun hc => absurd hlt hc, ?_⟩
    · simp only [FeedBuilder.random_withdrawal, FeedBuilder.get_account, ha,
        Option.getD_some, if_pos hlt]
    · intro hge'
      exact absurd hlt (not_lt.mpr (le_min hge' (le_of_lt hinv.maxGtMin)))
  · have hge := not_lt.mp hlt
    have hpos : (0 : ℚ) < min a.available s.max_amount := lt_of_lt_of_le hinv.minPos hge
    have hql : quant4 s.min_amount ≤ quant4 (min a.available s.max_amount) := quant4_mono hge
    have hok : s.random_withdrawal cid v =
        .ok (⟨RowKind.withdrawal, cid, s.tx_counter,
          some ((randint (quant4 s.min_amount) (quant4 (min a.available s.max_amount)) v : ℚ) * BPS)⟩,
          { s.update_account cid (fun b => { b with available := qSub b.available ((randint (quant4 s.min_amount) (quant4 (min a.available s.max_amount)) v : ℚ) * BPS) }) with
            tx_counter := s.tx_counter + 1 }) := by
      simp only [FeedBuilder.random_withdrawal, FeedBuilder.get_account, ha,
        Option.getD_some, if_neg hlt, decimal_from_range_eq hpos hge v]
      rfl
    refine ⟨⟨fun he => ?_, fun hc => absurd hc hlt⟩, fun _ => ?_, fun _ => hlt⟩
    · rcases he with ⟨e, he⟩
      rw [hok] at he
      cases he
    · refine ⟨randint (quant4 s.min_amount) (quant4 (min a.available s.max_amount)) v,
        le_randint hql v, randint_le hql v, _, hok, rfl, ?_⟩
      show ∃ a', ((s.update_account cid (fun b => { b with available := qSub b.available ((randint (quant4 s.min_amount) (quant4 (min a.available s.max_amount)) v : ℚ) * BPS) })).accounts).lookup cid = some a' ∧ _
      rw [lookup_update_account, if_pos rfl, ha]
      refine ⟨_, rfl, ?_⟩
      show qSub a.available ((randint (quant4 s.min_amount)
          (quant4 (min a.available s.max_amount)) v : ℚ) * BPS) = _
      rw [qSub_eq]

/-- Witness for `c6_amended`: on the freshly initialized state `s0W` client 1
holds 0, so cap = min(0, 2) = 0 < min_amount = 1 and the fatal branch of the
iff is exercised. -/
theorem c6_amended_witness :
    ((∃ e, s0W.random_withdrawal 1 0 = .error e) ↔
        min (ClientAccount.mk 0 0 false).available s0W.max_amount < s0W.min_amount) ∧
    (¬ min (ClientAccount.mk 0 0 false).available s0W.max_amount < s0W.min_amount →
      ∃ n : ℤ, quant4 s0W.min_amount ≤ n ∧
        n ≤ quant4 (min (ClientAccount.mk 0 0 false).available s0W.max_amount) ∧
        ∃ s', s0W.random_withdrawal 1 0 =
            .ok (⟨RowKind.withdrawal, 1, s0W.tx_counter, some ((n : ℚ) * BPS)⟩, s') ∧
          s'.tx_counter = s0W.tx_counter + 1 ∧
          ∃ a', s'.accounts.lookup 1 = some a' ∧
            a'.available = (ClientAccount.mk 0 0 false).available - (n : ℚ) * BPS) ∧
    ((s0W.min_amount ≤ (ClientAccount.mk 0 0 false).available →
      ¬ min (ClientAccount.mk 0 0 false).available s0W.max_amount < s0W.min_amount)) :=
  c6_amended s0W 1 0 (init_builder_ok (show init_builder cfgW3 eW3 = .ok s0W by decide)).1
    (ClientAccount.mk 0 0 false) (by decide)

/-- C7: when no action kind is legal (all weights zero) the generator forces
a deposit onto a client drawn from the unlocked pool, and errors out (the
fatal "no unlocked clients" error) exactly when no unlocked client remains. -/
theorem c7_fallback (s : FeedBuilder) (g : ℕ → ℕ) (fuel i : ℕ) (hinv : BuilderInv s)
    (hva : s.valid_actions = []) :
    (s.unlocked_clients = [] → next_row g (fuel + 1) s i = .error msgNoUnlocked) ∧
    (s.unlocked_clients ≠ [] →
      ∃ cid ∈ s.unlocked_clients, ∃ s',
        next_row g (fuel + 1) s i =
          .ok (⟨RowKind.deposit, cid, s.tx_counter,
            some ((randint (quant4 s.min_amount) (quant4 s.max_amount)
              (g (i + 1)) : ℚ) * BPS)⟩, s', i + 2)) := by
  have hcands : action_order.filter (fun p => decide (p.1 ∈ s.valid_actions)) = [] := by
    simp [hva]
  constructor
  · intro hemp
    have hcc : s.choose_client false (g i) = none := by
      unfold FeedBuilder.choose_client
      simp [hemp]
    simp only [next_row, hcands, hcc]
  · intro hne
    have hcc : s.choose_client false (g i) = some (listChoice s.unlocked_clients (g i)) := by
      unfold FeedBuilder.choose_client
      simp only [Bool.false_eq_true, if_false]
      rw [if_neg (by simpa using hne)]
    rcases random_deposit_ok (listChoice s.unlocked_clients (g i)) (g (i + 1)) hinv
      with ⟨s', hrd⟩
    refine ⟨listChoice s.unlocked_clients (g i), listChoice_mem hne (g i), s', ?_⟩
    simp only [next_row, hcands, hcc, hrd]

/-- Witness for `c7_fallback` on `sLock`: its only client is locked, so no
action is legal and the fallback raises the fatal error. -/
theorem c7_fallback_witness :
    (sLock.unlocked_clients = [] →
      next_row (fun _ => 0) 1 sLock 0 = .error msgNoUnlocked) ∧
    (sLock.unlocked_clients ≠ [] →
      ∃ cid ∈ sLock.unlocked_clients, ∃ s',
        next_row (fun _ => 0) 1 sLock 0 =
          .ok (⟨RowKind.deposit, cid, sLock.tx_counter,
            some ((randint (quant4 sLock.min_amount) (quant4 sLock.max_amount)
              ((fun _ => 0) (0 + 1)) : ℚ) * BPS)⟩, s', 0 + 2)) :=
  c7_fallback sLock (fun _ => 0) 0 0 builderInv_sLock (by decide)

/-- C8 counterexample: the claim "returns a value in [min, max]" is false on
the code for off-grid bounds.  With min = 0.00004 and max = 1 (so
0 < min < max), the half-even quantization of the low bound is
`quant4(0.00004) = 0` and the draw 0 returns amount 0 < min. -/
theorem c8_counterexample :
    (0 : ℚ) < mkRat 1 25000 ∧ (mkRat 1 25000 : ℚ) < 1 ∧
    decimal_from_range (mkRat 1 25000) 1 0 = .ok 0 := by
  decide

/-- C8 (amended): `decimal_from_range` fails with the invalid-range error
exactly when max ≤ 0; for 0 < min < max it returns a grid point `n·0.0001`
with `quant4(min) ≤ n ≤ quant4(max)` — the sampled value lies in
[quant4(min)·0.0001, quant4(max)·0.0001], which equals [min, max] exactly
when both bounds are multiples of 0.0001 (off-grid bounds can put the value
outside [min, max], see `c8_counterexample`). -/
theorem c8_amended (minA maxA : ℚ) (v : ℕ) :
    ((∃ e, decimal_from_range minA maxA v = .error e) ↔ maxA ≤ 0) ∧
    (0 < minA → minA < maxA →
      ∃ n : ℤ, decimal_from_range minA maxA v = .ok ((n : ℚ) * BPS) ∧
        quant4 minA ≤ n ∧ n ≤ quant4 maxA ∧
        (quant4 minA : ℚ) * BPS ≤ (n : ℚ) * BPS ∧
        (n : ℚ) * BPS ≤ (quant4 maxA : ℚ) * BPS) ∧
    (∀ p q : ℤ, minA = (p : ℚ) * BPS → maxA = (q : ℚ) * BPS → 0 < maxA → minA ≤ maxA →
      ∃ n : ℤ, decimal_from_range minA maxA v = .ok ((n : ℚ) * BPS) ∧
        minA ≤ (n : ℚ) * BPS ∧ (n : ℚ) * BPS ≤ maxA) := by
  refine ⟨decimal_from_range_error_iff minA maxA v, ?_, ?_⟩
  · intro hmin hlt
    have hmax : (0 : ℚ) < maxA := lt_trans hmin hlt
    have hle : minA ≤ maxA := le_of_lt hlt
    have hql : quant4 minA ≤ quant4 maxA := quant4_mono hle
    refine ⟨randint (quant4 minA) (quant4 maxA) v, decimal_from_range_eq hmax hle v,
      le_randint hql v, randint_le hql v, ?_, ?_⟩
    · exact mul_le_mul_of_nonneg_right (by exact_mod_cast le_randint hql v)
        (le_of_lt BPS_pos)
    · exact mul_le_mul_of_nonneg_right (by exact_mod_cast randint_le hql v)
        (le_of_lt BPS_pos)
  · intro p q hp hq hmax hle
    have hql : quant4 minA ≤ quant4 maxA := quant4_mono hle
    have hqp : quant4 minA = p := by rw [hp]; exact quant4_intCast_mul_BPS p
    have hqq : quant4 maxA = q := by rw [hq]; exact quant4_intCast_mul_BPS q
    refine ⟨randint (quant4 minA) (quant4 maxA) v, decimal_from_range_eq hmax hle v, ?_, ?_⟩
    · have h0 := le_randint hql v
      have h1 : p ≤ randint (quant4 minA) (quant4 maxA) v := by omega
      calc minA = (p : ℚ) * BPS := hp
        _ ≤ (randint (quant4 minA) (quant4 maxA) v : ℚ) * BPS :=
          mul_le_mul_of_nonneg_right (by exact_mod_cast h1) (le_of_lt BPS_pos)
    · have h0 := randint_le hql v
      have h1 : randint (quant4 minA) (quant4 maxA) v ≤ q := by omega
      calc (randint (quant4 minA) (quant4 maxA) v : ℚ) * BPS
          ≤ (q : ℚ) * BPS :=
          mul_le_mul_of_nonneg_right (by exact_mod_cast h1) (le_of_lt BPS_pos)
        _ = maxA := hq.symm
